import Mathlib

/-!
Verification of the CSR sparse-matrix engine (`src/Matrix.ts`).

The TypeScript class `Matrix` stores an `rows × cols` matrix in Compressed
Sparse Row form: three parallel buffers `V` (non-zero values), `COL_INDEX`
(column of each stored value) and `ROW_INDEX` (per-row start offsets).
We embed the class shallowly: JS numbers used as values become `Int`,
array indices become `Nat`, growable arrays become `List`s, throwing
operations return `Except MatrixError`, and the two mutating operations
(`set`, and the receiver-mutating branch of `map`) are modelled by
explicit state passing.  JS reads of an array cell that may be absent are
modelled with `List.getD _ _ 0`; every theorem below only exercises reads
that are in range, where this agrees with the source.
-/

namespace CSR

/-- Error kinds named by the specification for the throwing operations. -/
inductive MatrixError where
  | InvalidShape
  | DimensionMismatch
  | NotSquareMatrix
deriving DecidableEq, Repr

/-- JS `arr.splice(i, 0, x)` (insert `x` at position `i`, clamped to the
length, as JS does). -/
def insertAt (l : List α) (i : Nat) (x : α) : List α :=
  l.take i ++ [x] ++ l.drop i

/-- JS `arr.splice(i, 1)` (delete the element at position `i`; a no-op
beyond the end, as in JS). -/
def removeAt (l : List α) (i : Nat) : List α :=
  l.take i ++ l.drop (i + 1)

/-- JS `arr[i] = v` on a growable array: in range it overwrites, past the
end it extends the array, filling the gap with `pad` (JS leaves holes,
which the proofs never read). -/
def listWrite (l : List α) (i : Nat) (pad v : α) : List α :=
  if i < l.length then l.set i v
  else l ++ List.replicate (i - l.length) pad ++ [v]

/-- JS `Map.prototype.set` on an insertion-ordered association list:
overwrite the entry in place if the key exists, else append. -/
def mapSet (l : List (Nat × Int)) (k : Nat) (v : Int) : List (Nat × Int) :=
  if l.any (fun p => p.1 = k) then
    l.map (fun p => if p.1 = k then (k, v) else p)
  else l ++ [(k, v)]

/-- JS `Map.prototype.get` on the association-list model. -/
def mapGet (l : List (Nat × Int)) (k : Nat) : Option Int :=
  (l.find? (fun p => p.1 = k)).map (fun p => p.2)

/-- The CSR store: `src/Matrix.ts` class `Matrix`.  Shapes are JS numbers
(possibly non-positive), kept as `Int`; the three buffers are lists. -/
structure Matrix where
  rows : Int
  cols : Int
  V : List Int
  COL_INDEX : List Nat
  ROW_INDEX : List Nat
deriving DecidableEq, Repr

namespace Matrix

/-- A raw cell of the dense input array: `none` models a missing or
non-numeric cell (short row, hole, or non-number), `some v` a numeric
cell. -/
def cellAt (data : List (List (Option Int))) (i j : Nat) : Option Int :=
  match data.getD i [] |>.getD j none with
  | none => none
  | some v => some v

/-- `sparseData` (`Matrix.ts` lines 150-167): compress a dense array.
For each cell in row-major order, store it only when the source row
exists, the cell is numeric and non-zero; `ROW_INDEX` records the running
entry count after each row. -/
def sparseData (rows cols : Int) (data : List (List (Option Int))) :
    List Int × List Nat × List Nat :=
  let st := (List.range rows.toNat).foldl
    (fun (st : List Int × List Nat × List Nat × Nat) i =>
      let st2 := (List.range cols.toNat).foldl
        (fun (st2 : List Int × List Nat × List Nat × Nat) j =>
          match cellAt data i j with
          | some v =>
            if v ≠ 0 then
              (st2.1 ++ [v], st2.2.1 ++ [j], st2.2.2.1, st2.2.2.2 + 1)
            else st2
          | none => st2) st
      (st2.1, st2.2.1, st2.2.2.1 ++ [st2.2.2.2], st2.2.2.2))
    ([], [], [0], 0)
  (st.1, st.2.1, st.2.2.1)

/-- The constructor `new Matrix(rows, cols, data?)` (`Matrix.ts` 68-70):
record the shape and, when dense data is supplied, compress it; there is
no validation of `rows`/`cols`. -/
def construct (rows cols : Int) (data : Option (List (List (Option Int)))) :
    Matrix :=
  match data with
  | none => { rows := rows, cols := cols, V := [], COL_INDEX := [], ROW_INDEX := [0] }
  | some d =>
    let st := sparseData rows cols d
    { rows := rows, cols := cols, V := st.1, COL_INDEX := st.2.1, ROW_INDEX := st.2.2 }

/-- The constructor viewed as a fallible call: the spec claims it can fail
with `InvalidShape`, but the source body contains no `throw` at all, so
the embedding always returns `Except.ok`. -/
def constructE (rows cols : Int) (data : Option (List (List (Option Int)))) :
    Except MatrixError Matrix :=
  .ok (construct rows cols data)

/-- Row `r`'s slice of `COL_INDEX`
(`COL_INDEX.slice(ROW_INDEX[r], ROW_INDEX[r+1])`). -/
def segCols (m : Matrix) (r : Nat) : List Nat :=
  (m.COL_INDEX.drop (m.ROW_INDEX.getD r 0)).take
    (m.ROW_INDEX.getD (r + 1) 0 - m.ROW_INDEX.getD r 0)

/-- Row `r`'s slice of `V`. -/
def segVals (m : Matrix) (r : Nat) : List Int :=
  (m.V.drop (m.ROW_INDEX.getD r 0)).take
    (m.ROW_INDEX.getD (r + 1) 0 - m.ROW_INDEX.getD r 0)

/-- Row `r` as a list of `(column, value)` pairs. -/
def seg (m : Matrix) (r : Nat) : List (Nat × Int) :=
  (m.segCols r).zip (m.segVals r)

/-- `get(row, col)` (`Matrix.ts` 318-322): slice the row's columns, locate
`col` with `indexOf`, and read `V[ROW_INDEX[row] + i]`; 0 when absent. -/
def get (m : Matrix) (row col : Nat) : Int :=
  match (m.segCols row).findIdx? (fun c => c = col) with
  | none => 0
  | some i => m.V.getD (m.ROW_INDEX.getD row 0 + i) 0

/-- `set(row, col, value)` (`Matrix.ts` 336-361).  Note the insert branch
computes `index = ROW_INDEX[row] + columns.length`, the end of the row's
segment. -/
def set (m : Matrix) (row col : Nat) (value : Int) : Matrix :=
  let rowStart := m.ROW_INDEX.getD row 0
  let columns := m.segCols row
  match columns.findIdx? (fun c => c = col) with
  | none =>
    if value ≠ 0 then
      let index := rowStart + columns.length
      { m with
        COL_INDEX := insertAt m.COL_INDEX index col,
        V := insertAt m.V index value,
        ROW_INDEX := m.ROW_INDEX.mapIdx
          (fun k x => if row + 1 ≤ k then x + 1 else x) }
    else m
  | some i =>
    if value = 0 then
      let index := rowStart + i
      { m with
        COL_INDEX := removeAt m.COL_INDEX index,
        V := removeAt m.V index,
        ROW_INDEX := m.ROW_INDEX.mapIdx
          (fun k x => if row + 1 ≤ k then x - 1 else x) }
    else { m with V := m.V.set (rowStart + i) value }

/-- `toArray()` (`Matrix.ts` 128-136): the dense projection as a flat
row-major list of `get` reads. -/
def toArray (m : Matrix) : List Int :=
  (List.range m.rows.toNat).flatMap
    (fun row => (List.range m.cols.toNat).map (fun col => m.get row col))

/-- `map(callback, strict)` (`Matrix.ts` 269-307), with the receiver
threaded explicitly: the result is `(receiver after the call, returned
matrix)`.  The strict branch iterates the stored entries (`forEach`)
building fresh buffers; the non-strict branch of the source pushes into
`this.V`, `this.COL_INDEX` and `this.ROW_INDEX` (lines 292-297), so there
the receiver's state changes while `C_V`/`C_COL_INDEX`/`C_ROW_INDEX` stay
empty. -/
def map (m : Matrix) (callback : Int → Nat → Nat → Int) (strict : Bool) :
    Matrix × Matrix :=
  if strict then
    let st := (List.range (m.ROW_INDEX.length - 1)).foldl
      (fun (st : List Int × List Nat × List Nat) row =>
        let rowStart := m.ROW_INDEX.getD row 0
        let rowEnd := m.ROW_INDEX.getD (row + 1) 0
        (List.range' rowStart (rowEnd - rowStart)).foldl
          (fun (st : List Int × List Nat × List Nat) i =>
            let col := m.COL_INDEX.getD i 0
            let value := m.V.getD i 0
            let newValue := callback value row col
            let st1 := if newValue ≠ 0 then
                (st.1 ++ [newValue], st.2.1 ++ [col], st.2.2)
              else st
            if st1.2.2.length - 1 < row + 1 then
              (st1.1, st1.2.1, st1.2.2 ++ [st1.1.length])
            else st1) st)
      ([], [], [0])
    (m, { rows := m.rows, cols := m.cols, V := st.1, COL_INDEX := st.2.1,
            ROW_INDEX := st.2.2 })
  else
    let st := (List.range m.rows.toNat).foldl
      (fun (st : List Int × List Nat × List Nat × Nat) i =>
        let st2 := (List.range m.cols.toNat).foldl
          (fun (st2 : List Int × List Nat × List Nat × Nat) j =>
            let cur : Matrix := { rows := m.rows, cols := m.cols, V := st2.1,
                                   COL_INDEX := st2.2.1, ROW_INDEX := st2.2.2.1 }
            let newValue := callback (cur.get i j) i j
            if newValue ≠ 0 then
              (st2.1 ++ [newValue], st2.2.1 ++ [j], st2.2.2.1, st2.2.2.2 + 1)
            else st2) st
        (st2.1, st2.2.1, st2.2.2.1 ++ [st2.2.2.2], st2.2.2.2))
      (m.V, m.COL_INDEX, m.ROW_INDEX, 0)
    ({ m with V := st.1, COL_INDEX := st.2.1, ROW_INDEX := st.2.2.1 },
     { rows := m.rows, cols := m.cols, V := [], COL_INDEX := [], ROW_INDEX := [0] })

/-- `transpose()` (`Matrix.ts` 370-402): bucket transpose.  First count
the entries per original column into `T_ROW_INDEX[col+1]`, turn that into
prefix sums, copy it as write cursors, then scatter every entry `(i, col,
v)` to position `rowPtr[col]++` of the output buffers. -/
def transpose (m : Matrix) : Matrix :=
  let counts := (List.range m.V.length).foldl
    (fun (t : List Nat) i =>
      let col := m.COL_INDEX.getD i 0
      listWrite t (col + 1) 0 (t.getD (col + 1) 0 + 1))
    (List.replicate (m.cols.toNat + 1) 0)
  let tROW := (List.range' 1 m.cols.toNat).foldl
    (fun (t : List Nat) i => t.set i (t.getD i 0 + t.getD (i - 1) 0)) counts
  let st := (List.range m.rows.toNat).foldl
    (fun (st : List Nat × List Int × List Nat) i =>
      let aStart := m.ROW_INDEX.getD i 0
      let aEnd := m.ROW_INDEX.getD (i + 1) 0
      (List.range' aStart (aEnd - aStart)).foldl
        (fun (st : List Nat × List Int × List Nat) j =>
          let col := m.COL_INDEX.getD j 0
          let pos := st.1.getD col 0
          (listWrite st.1 col 0 (pos + 1),
           listWrite st.2.1 pos 0 (m.V.getD j 0),
           listWrite st.2.2 pos 0 i)) st)
    (tROW, [], [])
  { rows := m.cols, cols := m.rows,
    V := st.2.1, COL_INDEX := st.2.2, ROW_INDEX := tROW }

/-- The common tail of `addition`/`subtract`/`multiply`: filter zero
results out of the accumulator's entries, sort by ascending column, and
push them (then the new total count) onto the output buffers. -/
def emitSorted (st : List Int × List Nat × List Nat)
    (acc : List (Nat × Int)) : List Int × List Nat × List Nat :=
  let sortedEntries := (acc.filter (fun p => p.2 ≠ 0)).mergeSort
    (fun p q => p.1 ≤ q.1)
  let st2 := sortedEntries.foldl
    (fun (s : List Int × List Nat) p => (s.1 ++ [p.2], s.2 ++ [p.1]))
    (st.1, st.2.1)
  (st2.1, st2.2, st.2.2 ++ [st2.1.length])

/-- The per-row accumulator of `addition` (`Matrix.ts` 423-437): sum both
operands' row entries into a column-keyed insertion-ordered map. -/
def addAcc (m matrix : Matrix) (i : Nat) : List (Nat × Int) :=
  let acc1 := (List.range' (m.ROW_INDEX.getD i 0)
      (m.ROW_INDEX.getD (i + 1) 0 - m.ROW_INDEX.getD i 0)).foldl
    (fun acc j =>
      let col := m.COL_INDEX.getD j 0
      mapSet acc col ((mapGet acc col).getD 0 + m.V.getD j 0)) []
  (List.range' (matrix.ROW_INDEX.getD i 0)
      (matrix.ROW_INDEX.getD (i + 1) 0 - matrix.ROW_INDEX.getD i 0)).foldl
    (fun acc j =>
      let col := matrix.COL_INDEX.getD j 0
      mapSet acc col ((mapGet acc col).getD 0 + matrix.V.getD j 0)) acc1

/-- `addition(matrix)` (`Matrix.ts` 413-456): per row, merge both
operands' entries into a column-keyed accumulator by summing, then emit
the non-zero results sorted by column. -/
def addition (m matrix : Matrix) : Except MatrixError Matrix :=
  if m.rows ≠ matrix.rows ∨ m.cols ≠ matrix.cols then
    .error .DimensionMismatch
  else
    let st := (List.range m.rows.toNat).foldl
      (fun st i => emitSorted st (addAcc m matrix i))
      ([], [], [0])
    .ok { rows := m.rows, cols := m.cols,
          V := st.1, COL_INDEX := st.2.1, ROW_INDEX := st.2.2 }

/-- The per-row accumulator of `subtract` (`Matrix.ts` 477-491): as the
one of `addition` but subtracting the second operand's values. -/
def subAcc (m matrix : Matrix) (i : Nat) : List (Nat × Int) :=
  let acc1 := (List.range' (m.ROW_INDEX.getD i 0)
      (m.ROW_INDEX.getD (i + 1) 0 - m.ROW_INDEX.getD i 0)).foldl
    (fun acc j =>
      let col := m.COL_INDEX.getD j 0
      mapSet acc col ((mapGet acc col).getD 0 + m.V.getD j 0)) []
  (List.range' (matrix.ROW_INDEX.getD i 0)
      (matrix.ROW_INDEX.getD (i + 1) 0 - matrix.ROW_INDEX.getD i 0)).foldl
    (fun acc j =>
      let col := matrix.COL_INDEX.getD j 0
      mapSet acc col ((mapGet acc col).getD 0 - matrix.V.getD j 0)) acc1

/-- `subtract(matrix)` (`Matrix.ts` 467-510): as `addition` but the second
operand's values are subtracted in the accumulator. -/
def subtract (m matrix : Matrix) : Except MatrixError Matrix :=
  if m.rows ≠ matrix.rows ∨ m.cols ≠ matrix.cols then
    .error .DimensionMismatch
  else
    let st := (List.range m.rows.toNat).foldl
      (fun st i => emitSorted st (subAcc m matrix i))
      ([], [], [0])
    .ok { rows := m.rows, cols := m.cols,
          V := st.1, COL_INDEX := st.2.1, ROW_INDEX := st.2.2 }

/-- The two-pointer row merge of `hadamard` (`Matrix.ts` 536-553): walk
both row segments, advancing the pointer with the smaller column; on
equality emit the product when non-zero and advance both. -/
def hadRow (A B : Matrix) (aPtr aEnd bPtr bEnd : Nat) : List (Nat × Int) :=
  if h : aPtr < aEnd ∧ bPtr < bEnd then
    let aCol := A.COL_INDEX.getD aPtr 0
    let bCol := B.COL_INDEX.getD bPtr 0
    if aCol = bCol then
      let val := A.V.getD aPtr 0 * B.V.getD bPtr 0
      (if val ≠ 0 then [(aCol, val)] else []) ++
        hadRow A B (aPtr + 1) aEnd (bPtr + 1) bEnd
    else if aCol < bCol then hadRow A B (aPtr + 1) aEnd bPtr bEnd
    else hadRow A B aPtr aEnd (bPtr + 1) bEnd
  else []
termination_by (aEnd - aPtr) + (bEnd - bPtr)
decreasing_by
  all_goals omega

/-- Pushing one finished row block onto the output buffers and recording
the new total count in `ROW_INDEX` (the tail every per-row loop of the
merge algebra shares). -/
def pushRow (st : List Int × List Nat × List Nat) (b : List (Nat × Int)) :
    List Int × List Nat × List Nat :=
  let st2 := b.foldl
    (fun (s : List Int × List Nat) p => (s.1 ++ [p.2], s.2 ++ [p.1]))
    (st.1, st.2.1)
  (st2.1, st2.2, st.2.2 ++ [st2.1.length])

/-- Row `i`'s two-pointer merge of `hadamard`, with the pointers starting
and ending at the two operands' row offsets (`Matrix.ts` 531-534). -/
def hadRowAt (m matrix : Matrix) (i : Nat) : List (Nat × Int) :=
  hadRow m matrix (m.ROW_INDEX.getD i 0) (m.ROW_INDEX.getD (i + 1) 0)
    (matrix.ROW_INDEX.getD i 0) (matrix.ROW_INDEX.getD (i + 1) 0)

/-- `hadamard(matrix)` (`Matrix.ts` 521-564): per row, two-pointer merge
of the sorted segments, emitting non-zero products. -/
def hadamard (m matrix : Matrix) : Except MatrixError Matrix :=
  if m.rows ≠ matrix.rows ∨ m.cols ≠ matrix.cols then
    .error .DimensionMismatch
  else
    let st := (List.range m.rows.toNat).foldl
      (fun st i => pushRow st (hadRowAt m matrix i))
      ([], [], [0])
    .ok { rows := m.rows, cols := m.cols,
          V := st.1, COL_INDEX := st.2.1, ROW_INDEX := st.2.2 }

/-- The per-row accumulator of `multiply` (`Matrix.ts` 587-603): for each
stored `(k, aVal)` of row `i` of the receiver, scan row `k` of the second
operand accumulating `aVal * bVal` per output column. -/
def mulAcc (m matrix : Matrix) (i : Nat) : List (Nat × Int) :=
  (List.range' (m.ROW_INDEX.getD i 0)
      (m.ROW_INDEX.getD (i + 1) 0 - m.ROW_INDEX.getD i 0)).foldl
    (fun acc aPtr =>
      let k := m.COL_INDEX.getD aPtr 0
      let aVal := m.V.getD aPtr 0
      (List.range' (matrix.ROW_INDEX.getD k 0)
          (matrix.ROW_INDEX.getD (k + 1) 0 - matrix.ROW_INDEX.getD k 0)).foldl
        (fun acc bPtr =>
          let j := matrix.COL_INDEX.getD bPtr 0
          let bVal := matrix.V.getD bPtr 0
          mapSet acc j ((mapGet acc j).getD 0 + aVal * bVal)) acc) []

/-- `multiply(matrix)` (`Matrix.ts` 575-622): classic sparse-sparse
product; for each stored `(k, aVal)` of a row of `A`, scan row `k` of `B`
accumulating `aVal * bVal` per output column, then emit non-zero results
sorted by column. -/
def multiply (m matrix : Matrix) : Except MatrixError Matrix :=
  if m.cols ≠ matrix.rows then .error .DimensionMismatch
  else
    let numARows := m.ROW_INDEX.length - 1
    let st := (List.range numARows).foldl
      (fun st i => emitSorted st (mulAcc m matrix i))
      ([], [], [0])
    .ok { rows := m.rows, cols := matrix.cols,
          V := st.1, COL_INDEX := st.2.1, ROW_INDEX := st.2.2 }

end Matrix

/-- The inner row-copy loop of `csrMatrixSubmatrix` (`Matrix.ts` 43-50):
walk row `i`'s stored entries, skip the excluded column, shift larger
columns down by one, and count the copied entries. -/
def subInner (m : Matrix) (excludeCol i : Nat)
    (st2 : List Int × List Nat × Nat) : List Int × List Nat × Nat :=
  (List.range' (m.ROW_INDEX.getD i 0)
      (m.ROW_INDEX.getD (i + 1) 0 - m.ROW_INDEX.getD i 0)).foldl
    (fun (st2 : List Int × List Nat × Nat) j =>
      let col := m.COL_INDEX.getD j 0
      if col = excludeCol then st2
      else
        (st2.1 ++ [m.V.getD j 0],
         st2.2.1 ++ [if col < excludeCol then col else col - 1],
         st2.2.2 + 1)) st2

/-- `csrMatrixSubmatrix` (`Matrix.ts` 29-61): copy every row except
`excludeRow`, dropping entries in column `excludeCol` and shifting larger
column indices down by one; note the result's shape fields are set to
`(matrix.cols, matrix.rows)` by the source. -/
def csrSub (m : Matrix) (excludeRow excludeCol : Nat) : Matrix :=
  let n := m.ROW_INDEX.length - 1
  let st := (List.range n).foldl
    (fun (st : List Int × List Nat × List Nat) i =>
      if i = excludeRow then st
      else
        let st2 := subInner m excludeCol i (st.1, st.2.1, 0)
        (st2.1, st2.2.1, st.2.2 ++ [st.2.2.getLastD 0 + st2.2.2]))
    ([], [], [0])
  { rows := m.cols, cols := m.rows,
    V := st.1, COL_INDEX := st.2.1, ROW_INDEX := st.2.2 }

/-- The `ROW_INDEX` length of a submatrix: one entry plus one per
non-excluded row. -/
theorem csrSub_ROW_length (m : Matrix) (e c : Nat) :
    (csrSub m e c).ROW_INDEX.length =
      1 + ((List.range (m.ROW_INDEX.length - 1)).filter
        (fun i => decide (i ≠ e))).length := by
  unfold csrSub
  generalize (m.ROW_INDEX.length - 1) = n
  suffices h : ∀ (l : List Nat) (st : List Int × List Nat × List Nat),
      (l.foldl (fun st i =>
        if i = e then st
        else
          let st2 := subInner m c i (st.1, st.2.1, 0)
          (st2.1, st2.2.1, st.2.2 ++ [st.2.2.getLastD 0 + st2.2.2])) st).2.2.length
        = st.2.2.length + (l.filter (fun i => decide (i ≠ e))).length by
    simpa using h (List.range n) ([], [], [0])
  intro l
  induction l with
  | nil => intro st; simp
  | cons a l ih =>
    intro st
    by_cases ha : a = e
    · simp only [List.foldl_cons, ha, if_pos rfl, List.filter_cons]
      have : (decide (e ≠ e)) = false := by simp
      rw [this]
      exact ih st
    · rw [List.foldl_cons, if_neg ha, ih]
      have hf : List.filter (fun i => decide (i ≠ e)) (a :: l)
          = a :: List.filter (fun i => decide (i ≠ e)) l := by
        simp [List.filter_cons, ha]
      rw [hf]
      simp only [List.length_append, List.length_cons, List.length_nil]
      omega

theorem csrSub_ROW_length_lt (m : Matrix) (c : Nat)
    (h : 3 ≤ m.ROW_INDEX.length) :
    (csrSub m 0 c).ROW_INDEX.length < m.ROW_INDEX.length := by
  rw [csrSub_ROW_length]
  have h1 : ∀ n : Nat, ((List.range (n + 1)).filter
      (fun i => decide (i ≠ 0))).length = n := by
    intro n
    induction n with
    | zero => simp
    | succ k ih =>
      rw [List.range_succ, List.filter_append, List.length_append, ih]
      simp
  obtain ⟨k, hk⟩ : ∃ k, m.ROW_INDEX.length - 1 = k + 1 :=
    ⟨m.ROW_INDEX.length - 2, by omega⟩
  rw [hk, h1]
  omega

/-- `csrMatrixDeterminant` (`Matrix.ts` 1-27): first-row Laplace
expansion.  `n` is `ROW_INDEX.length - 1`; base cases `n = 0 ↦ 1` and
`n = 1 ↦ V[0] || 0`; otherwise the squareness check `n === max(COL_INDEX)
+ 1` (JS `Math.max()` of an empty spread is `-Infinity`, which never
equals `n`, modelled by the `none` branch of `max?`), then the signed sum
over the stored entries of row 0. -/
def csrDet (m : Matrix) : Except MatrixError Int :=
  if _h0 : m.ROW_INDEX.length - 1 = 0 then .ok 1
  else if _h1 : m.ROW_INDEX.length - 1 = 1 then .ok (m.V.getD 0 0)
  else
    let n := m.ROW_INDEX.length - 1
    match m.COL_INDEX.max? with
    | none => .error .NotSquareMatrix
    | some mx =>
      if n ≠ mx + 1 then .error .NotSquareMatrix
      else
        let rowStart := m.ROW_INDEX.getD 0 0
        let rowEnd := m.ROW_INDEX.getD 1 0
        (List.range' rowStart (rowEnd - rowStart)).foldl
          (fun acc i =>
            match acc with
            | .error e => .error e
            | .ok s =>
              let col := m.COL_INDEX.getD i 0
              let value := m.V.getD i 0
              match csrDet (csrSub m 0 col) with
              | .error e => .error e
              | .ok cofactor =>
                .ok (s + (if (0 + col) % 2 = 0 then (1 : Int) else -1)
                      * value * cofactor))
          (.ok 0)
termination_by m.ROW_INDEX.length
decreasing_by
  exact csrSub_ROW_length_lt m _ (by omega)

/-- `determinant()` (`Matrix.ts` 631-633). -/
def Matrix.determinant (m : Matrix) : Except MatrixError Int := csrDet m

/-! ### Row-block decomposition

All the fresh stores the operations build are concatenations of per-row
blocks of `(column, value)` entries, with `ROW_INDEX` the running entry
counts.  `fromBlocks` is that normal form; the lemmas below recover each
row (`segCols`/`segVals`/`seg`) and each `get` from the blocks. -/

/-- The store assembled from per-row entry blocks. -/
def fromBlocks (rows cols : Int) (bs : List (List (Nat × Int))) : Matrix :=
  { rows := rows, cols := cols,
    V := (bs.map (fun b => b.map Prod.snd)).flatten,
    COL_INDEX := (bs.map (fun b => b.map Prod.fst)).flatten,
    ROW_INDEX := (bs.map List.length).scanl (· + ·) 0 }

theorem scanl_add_getD (ls : List Nat) (s r : Nat) (hr : r ≤ ls.length) :
    (ls.scanl (· + ·) s).getD r 0 = s + (ls.take r).sum := by
  induction ls generalizing s r with
  | nil =>
    have hr0 : r = 0 := by simpa using hr
    subst hr0
    simp [List.scanl_nil]
  | cons a t ih =>
    rw [List.scanl_cons]
    cases r with
    | zero => simp
    | succ r' =>
      have hr' : r' ≤ t.length := by simpa using hr
      simp only [List.singleton_append, List.getD_cons_succ, ih (s + a) r' hr',
        List.take_succ_cons, List.sum_cons]
      omega

theorem scanl_add_getLastD (ls : List Nat) (s : Nat) :
    (ls.scanl (· + ·) s).getLastD 0 = s + ls.sum := by
  induction ls generalizing s with
  | nil => simp [List.scanl_nil]
  | cons a t ih =>
    rw [List.scanl_cons, List.singleton_append, List.getLastD_cons]
    have hd : ∀ d, (List.scanl (· + ·) (s + a) t).getLastD d
        = (List.scanl (· + ·) (s + a) t).getLastD 0 := by
      intro d
      cases h : List.scanl (· + ·) (s + a) t with
      | nil => exact absurd (congrArg List.length h) (by simp [List.length_scanl])
      | cons x xs =>
        obtain ⟨y, hy⟩ : ∃ y, (x :: xs).getLast? = some y :=
          ⟨(x :: xs).getLast (by simp), List.getLast?_eq_getLast _ (by simp)⟩
        simp [List.getLastD_eq_getLast?, hy]
    rw [hd s, ih]
    simp [List.sum_cons]
    omega

theorem scanl_add_chain_le (ls : List Nat) (s : Nat) :
    List.Chain' (· ≤ ·) (ls.scanl (· + ·) s) := by
  induction ls generalizing s with
  | nil => simp [List.scanl_nil]
  | cons a t ih =>
    rw [List.scanl_cons, List.singleton_append]
    rcases t with _ | ⟨b, t'⟩
    · simp [List.scanl_nil]
    · rw [List.scanl_cons]
      refine List.Chain'.cons ?_ (by simpa using ih (s + a))
      omega

theorem scanl_add_head (ls : List Nat) (s : Nat) :
    (ls.scanl (· + ·) s).getD 0 0 = s := by
  cases ls <;> simp [List.scanl_nil, List.scanl_cons]

/-- Extracting row `r`'s slice out of the flattened blocks. -/
theorem flatten_extract {β : Type} (F : (Nat × Int) → β)
    (bs : List (List (Nat × Int))) (r : Nat) (hr : r < bs.length) :
    (((bs.map (fun b => b.map F)).flatten.drop
        (((bs.map List.length).take r).sum)).take (bs.getD r []).length)
      = (bs.getD r []).map F := by
  induction bs generalizing r with
  | nil => exact absurd hr (by simp)
  | cons b bs ih =>
    cases r with
    | zero =>
      simp only [List.map_cons, List.flatten_cons, List.take_zero,
        List.sum_nil, List.drop_zero, List.getD_cons_zero]
      rw [show (b.map F ++ (bs.map (fun x => x.map F)).flatten).take b.length
          = (b.map F ++ (bs.map (fun x => x.map F)).flatten).take
            ((b.map F).length + 0) from by simp]
      rw [List.take_append]
      simp
    | succ r' =>
      have hr' : r' < bs.length := by simpa using hr
      simp only [List.map_cons, List.flatten_cons, List.take_succ_cons,
        List.sum_cons, List.getD_cons_succ]
      rw [show b.length + ((bs.map List.length).take r').sum
          = (b.map F).length + ((bs.map List.length).take r').sum from by simp]
      rw [List.drop_append]
      exact ih r' hr'

theorem fromBlocks_ROW_getD (rows cols : Int) (bs : List (List (Nat × Int)))
    (r : Nat) (hr : r ≤ bs.length) :
    (fromBlocks rows cols bs).ROW_INDEX.getD r 0
      = ((bs.map List.length).take r).sum := by
  have := scanl_add_getD (bs.map List.length) 0 r (by simpa using hr)
  simpa [fromBlocks] using this

theorem fromBlocks_segCols (rows cols : Int) (bs : List (List (Nat × Int)))
    (r : Nat) (hr : r < bs.length) :
    (fromBlocks rows cols bs).segCols r = (bs.getD r []).map Prod.fst := by
  unfold Matrix.segCols
  rw [fromBlocks_ROW_getD _ _ _ r (le_of_lt hr),
    fromBlocks_ROW_getD _ _ _ (r + 1) hr]
  have hsum : ((bs.map List.length).take (r + 1)).sum
      = ((bs.map List.length).take r).sum + (bs.getD r []).length := by
    rw [List.sum_take_succ _ r (by simpa using hr)]
    congr 1
    rw [List.getElem_map, List.getD_eq_getElem _ _ hr]
  rw [hsum, Nat.add_sub_cancel_left]
  exact flatten_extract Prod.fst bs r hr

theorem fromBlocks_segVals (rows cols : Int) (bs : List (List (Nat × Int)))
    (r : Nat) (hr : r < bs.length) :
    (fromBlocks rows cols bs).segVals r = (bs.getD r []).map Prod.snd := by
  unfold Matrix.segVals
  rw [fromBlocks_ROW_getD _ _ _ r (le_of_lt hr),
    fromBlocks_ROW_getD _ _ _ (r + 1) hr]
  have hsum : ((bs.map List.length).take (r + 1)).sum
      = ((bs.map List.length).take r).sum + (bs.getD r []).length := by
    rw [List.sum_take_succ _ r (by simpa using hr)]
    congr 1
    rw [List.getElem_map, List.getD_eq_getElem _ _ hr]
  rw [hsum, Nat.add_sub_cancel_left]
  exact flatten_extract Prod.snd bs r hr

theorem fromBlocks_ROW_length (rows cols : Int) (bs : List (List (Nat × Int))) :
    (fromBlocks rows cols bs).ROW_INDEX.length = bs.length + 1 := by
  simp [fromBlocks, List.length_scanl]

theorem fromBlocks_V_length (rows cols : Int) (bs : List (List (Nat × Int))) :
    (fromBlocks rows cols bs).V.length
      = ((bs.map List.length)).sum := by
  simp only [fromBlocks, List.length_flatten, List.map_map]
  congr 1
  apply List.map_congr_left
  intro b _
  simp

/-- The row lookup `get` performs (`indexOf` + aligned read) equals an
association-list `find?` over the row's `(column, value)` pairs. -/
theorem lookup_eq_find? (b : List (Nat × Int)) (c : Nat) :
    (match (b.map Prod.fst).findIdx? (fun x => x = c) with
     | none => (0 : Int)
     | some i => ((b.map Prod.snd).getD i 0))
    = (match b.find? (fun p => p.1 = c) with
       | none => 0
       | some p => p.2) := by
  induction b with
  | nil => simp
  | cons p t ih =>
    by_cases hp : p.1 = c
    · simp [List.findIdx?_cons, List.find?_cons, hp]
    · have hb : (decide (p.1 = c)) = false := by simpa using hp
      rw [List.map_cons, List.findIdx?_cons, List.find?_cons]
      simp only [hb, Bool.false_eq_true, if_false, List.findIdx?_succ]
      cases h : (t.map Prod.fst).findIdx? (fun x => x = c) with
      | none =>
        rw [h] at ih
        exact ih
      | some i =>
        rw [h] at ih
        exact ih

theorem findIdx?_lt_length {α : Type} {p : α → Bool} :
    ∀ {l : List α} {i : Nat}, l.findIdx? p = some i → i < l.length := by
  intro l
  induction l with
  | nil => intro i h; exact Option.noConfusion h
  | cons a t ih =>
    intro i h
    rw [List.findIdx?_cons] at h
    by_cases hp : p a = true
    · rw [if_pos hp] at h
      cases h
      simp
    · rw [if_neg hp, List.findIdx?_succ] at h
      cases hj : t.findIdx? p with
      | none => rw [hj] at h; simp at h
      | some j =>
        rw [hj] at h
        have hji : j + 1 = i := by
          have := congrArg (fun o => o.getD 0) h
          simpa using this
        subst hji
        exact Nat.succ_lt_succ (ih hj)

theorem fromBlocks_get (rows cols : Int) (bs : List (List (Nat × Int)))
    (r c : Nat) (hr : r < bs.length) :
    (fromBlocks rows cols bs).get r c
      = (match (bs.getD r []).find? (fun p => p.1 = c) with
         | none => 0
         | some p => p.2) := by
  rw [← lookup_eq_find?]
  unfold Matrix.get
  rw [fromBlocks_segCols _ _ _ r hr]
  cases h : ((bs.getD r []).map Prod.fst).findIdx? (fun x => x = c) with
  | none => rfl
  | some i =>
    have hi : i < (bs.getD r []).length := by
      have hx := findIdx?_lt_length h
      rw [List.length_map] at hx
      exact hx
    show (fromBlocks rows cols bs).V.getD
        ((fromBlocks rows cols bs).ROW_INDEX.getD r 0 + i) 0
      = ((bs.getD r []).map Prod.snd).getD i 0
    have hsv := fromBlocks_segVals rows cols bs r hr
    have hleft : ((fromBlocks rows cols bs).segVals r).getD i 0
        = ((bs.getD r []).map Prod.snd).getD i 0 := by rw [hsv]
    rw [← hleft]
    have hlen : ((fromBlocks rows cols bs).segVals r).length
        = (bs.getD r []).length := by rw [hsv, List.length_map]
    have hi2 : i < (fromBlocks rows cols bs).ROW_INDEX.getD (r + 1) 0
        - (fromBlocks rows cols bs).ROW_INDEX.getD r 0 := by
      have : ((fromBlocks rows cols bs).segVals r).length
          ≤ (fromBlocks rows cols bs).ROW_INDEX.getD (r + 1) 0
            - (fromBlocks rows cols bs).ROW_INDEX.getD r 0 := by
        unfold Matrix.segVals
        simp [List.length_take]
      omega
    unfold Matrix.segVals
    rw [List.getD_eq_getElem?_getD]
    conv_rhs => rw [List.getD_eq_getElem?_getD, List.getElem?_take]
    rw [if_pos hi2, List.getElem?_drop]

/-! ### The merge-algebra row pipeline

`addition`, `subtract` and `multiply` all build each output row by
filtering the zero results out of a column-keyed accumulator and sorting
by ascending column (`emitSorted`); `sortRow` names that filtered-sorted
block, and the lemmas below show the assembled store is `fromBlocks` of
those blocks and that each block has strictly increasing columns and no
zero value whenever the accumulator's keys are distinct (which the
JS-`Map` model `mapSet` guarantees). -/

/-- The sorted non-zero block one accumulator row contributes. -/
def sortRow (acc : List (Nat × Int)) : List (Nat × Int) :=
  (acc.filter (fun p => p.2 ≠ 0)).mergeSort (fun p q => p.1 ≤ q.1)

theorem foldl_push (b : List (Nat × Int)) :
    ∀ (v : List Int) (c : List Nat),
    b.foldl (fun (s : List Int × List Nat) p => (s.1 ++ [p.2], s.2 ++ [p.1]))
        (v, c)
      = (v ++ b.map Prod.snd, c ++ b.map Prod.fst) := by
  induction b with
  | nil => intro v c; simp
  | cons p t ih =>
    intro v c
    rw [List.foldl_cons, ih]
    simp

theorem emitSorted_eq (st : List Int × List Nat × List Nat)
    (acc : List (Nat × Int)) :
    Matrix.emitSorted st acc
      = (st.1 ++ (sortRow acc).map Prod.snd,
         st.2.1 ++ (sortRow acc).map Prod.fst,
         st.2.2 ++ [st.1.length + (sortRow acc).length]) := by
  simp only [Matrix.emitSorted, sortRow]
  rw [foldl_push]
  simp

theorem scanl_add_eq_cons_tail (b : Nat) (ls : List Nat) :
    ls.scanl (· + ·) b = b :: (ls.scanl (· + ·) b).tail := by
  cases ls <;> simp [List.scanl_nil, List.scanl_cons]

/-- The row-emitting fold, characterised as a block decomposition. -/
theorem foldl_emitSorted_eq (g : Nat → List (Nat × Int)) :
    ∀ (l : List Nat) (v : List Int) (c r : List Nat),
    l.foldl (fun st i => Matrix.emitSorted st (g i)) (v, c, r)
      = (v ++ ((l.map (fun i => sortRow (g i))).map
            (fun b => b.map Prod.snd)).flatten,
         c ++ ((l.map (fun i => sortRow (g i))).map
            (fun b => b.map Prod.fst)).flatten,
         r ++ (((l.map (fun i => sortRow (g i))).map List.length).scanl
            (· + ·) v.length).tail) := by
  intro l
  induction l with
  | nil => intro v c r; simp [List.scanl_nil]
  | cons a t ih =>
    intro v c r
    rw [List.foldl_cons, emitSorted_eq, ih]
    simp only [List.map_cons, List.flatten_cons, List.scanl_cons,
      List.singleton_append, List.tail_cons, Prod.mk.injEq]
    refine ⟨by simp, by simp, ?_⟩
    rw [scanl_add_eq_cons_tail (v.length + (sortRow (g a)).length)]
    simp [List.length_append, List.length_map]

/-- The invariants claim C9 states for the outputs of the merge algebra:
per-row strictly increasing columns, no stored zero, and a `ROW_INDEX`
that starts at 0, never decreases, and ends at the stored-entry count. -/
def CSRInv (C : Matrix) : Prop :=
  (∀ r, r + 1 < C.ROW_INDEX.length → List.Chain' (· < ·) (C.segCols r)) ∧
  (∀ v ∈ C.V, v ≠ 0) ∧
  C.ROW_INDEX.getD 0 0 = 0 ∧
  List.Chain' (· ≤ ·) C.ROW_INDEX ∧
  C.ROW_INDEX.getLastD 0 = C.V.length

theorem fromBlocks_CSRInv (rows cols : Int) (bs : List (List (Nat × Int)))
    (hb : ∀ b ∈ bs, List.Chain' (· < ·) (b.map Prod.fst) ∧ ∀ p ∈ b, p.2 ≠ 0) :
    CSRInv (fromBlocks rows cols bs) := by
  refine ⟨?_, ?_, ?_, ?_, ?_⟩
  · intro r hr
    rw [fromBlocks_ROW_length] at hr
    have hrb : r < bs.length := by omega
    rw [fromBlocks_segCols _ _ _ r hrb]
    have hmem : bs.getD r [] ∈ bs := by
      rw [List.getD_eq_getElem _ _ hrb]
      exact List.getElem_mem hrb
    exact (hb _ hmem).1
  · intro v hv
    simp only [fromBlocks, List.mem_flatten, List.mem_map] at hv
    obtain ⟨lv, ⟨b, hbmem, hbv⟩, hvlv⟩ := hv
    subst hbv
    obtain ⟨p, hpb, hpv⟩ := List.mem_map.mp hvlv
    exact hpv ▸ (hb b hbmem).2 p hpb
  · exact scanl_add_head _ 0
  · exact scanl_add_chain_le _ 0
  · rw [show (fromBlocks rows cols bs).ROW_INDEX
        = (bs.map List.length).scanl (· + ·) 0 from rfl,
      scanl_add_getLastD, fromBlocks_V_length]
    omega

theorem sortRow_nz (acc : List (Nat × Int)) :
    ∀ p ∈ sortRow acc, p.2 ≠ 0 := by
  intro p hp
  have hperm := List.mergeSort_perm (acc.filter (fun p => p.2 ≠ 0))
    (fun p q => p.1 ≤ q.1)
  have hpf : p ∈ acc.filter (fun p => p.2 ≠ 0) := hperm.mem_iff.mp hp
  have := List.of_mem_filter hpf
  simpa using this

theorem sortRow_chain (acc : List (Nat × Int))
    (h : (acc.map Prod.fst).Nodup) :
    List.Chain' (· < ·) ((sortRow acc).map Prod.fst) := by
  have hperm := List.mergeSort_perm (acc.filter (fun p => p.2 ≠ 0))
    (fun p q => p.1 ≤ q.1)
  have hnodup : ((sortRow acc).map Prod.fst).Nodup := by
    have hsub : ((acc.filter (fun p => p.2 ≠ 0)).map Prod.fst).Sublist
        (acc.map Prod.fst) := (List.filter_sublist acc).map Prod.fst
    have hnf : ((acc.filter (fun p => p.2 ≠ 0)).map Prod.fst).Nodup :=
      hsub.nodup h
    exact ((hperm.map Prod.fst).nodup_iff).mpr hnf
  have hsorted : List.Pairwise (fun p q : Nat × Int => p.1 ≤ q.1)
      (sortRow acc) := by
    have := @List.sorted_mergeSort (Nat × Int)
      (fun p q : Nat × Int => decide (p.1 ≤ q.1))
      (fun a b c hab hbc => by
        simp only [decide_eq_true_eq] at hab hbc ⊢; omega)
      (fun a b => by
        simp only [Bool.or_eq_true, decide_eq_true_eq]; omega)
      (acc.filter (fun p => p.2 ≠ 0))
    exact this.imp (fun h => by simpa using h)
  have hne : List.Pairwise (fun p q : Nat × Int => p.1 ≠ q.1)
      (sortRow acc) := List.pairwise_map.mp hnodup
  rw [List.chain'_iff_pairwise, List.pairwise_map]
  exact (hsorted.and hne).imp (fun ⟨hle, hn⟩ => lt_of_le_of_ne hle hn)

theorem mapSet_keys_nodup (l : List (Nat × Int)) (k : Nat) (v : Int)
    (h : (l.map Prod.fst).Nodup) :
    ((mapSet l k v).map Prod.fst).Nodup := by
  unfold mapSet
  by_cases hany : l.any (fun p => p.1 = k) = true
  · rw [if_pos hany]
    have : (l.map (fun p => if p.1 = k then (k, v) else p)).map Prod.fst
        = l.map Prod.fst := by
      rw [List.map_map]
      apply List.map_congr_left
      intro p _
      by_cases hp : p.1 = k <;> simp [hp]
    rw [this]
    exact h
  · rw [if_neg hany]
    rw [List.map_append, List.nodup_append]
    refine ⟨h, by simp, ?_⟩
    intro x hx
    simp only [List.map_cons, List.map_nil, List.mem_singleton]
    intro hxk
    obtain ⟨p, hpl, hpx⟩ := List.mem_map.mp hx
    have hfalse := List.any_eq_false.mp (Bool.eq_false_iff.mpr hany) p hpl
    exact hfalse (by simp [hpx, hxk])

/-- `foldl` preserves accumulator-key distinctness step by step. -/
theorem foldl_keys_nodup {σ : Type}
    (step : List (Nat × Int) → σ → List (Nat × Int))
    (hstep : ∀ a x, (a.map Prod.fst).Nodup → ((step a x).map Prod.fst).Nodup) :
    ∀ (l : List σ) (a : List (Nat × Int)),
    (a.map Prod.fst).Nodup → ((l.foldl step a).map Prod.fst).Nodup := by
  intro l
  induction l with
  | nil => intro a ha; simpa using ha
  | cons x t ih =>
    intro a ha
    rw [List.foldl_cons]
    exact ih _ (hstep a x ha)

/-- The two-pointer merge is symmetric in its operands: equal columns
emit the same product (`Int` multiplication commutes) and the pointer
advances mirror each other. -/
theorem hadRow_comm (A B : Matrix) :
    ∀ (n aPtr aEnd bPtr bEnd : Nat),
    (aEnd - aPtr) + (bEnd - bPtr) ≤ n →
    Matrix.hadRow A B aPtr aEnd bPtr bEnd
      = Matrix.hadRow B A bPtr bEnd aPtr aEnd := by
  intro n
  induction n with
  | zero =>
    intro aPtr aEnd bPtr bEnd hm
    conv_lhs => rw [Matrix.hadRow.eq_def]
    conv_rhs => rw [Matrix.hadRow.eq_def]
    rw [dif_neg (by rintro ⟨h1, h2⟩; omega),
      dif_neg (by rintro ⟨h1, h2⟩; omega)]
  | succ k ih =>
    intro aPtr aEnd bPtr bEnd hm
    conv_lhs => rw [Matrix.hadRow.eq_def]
    conv_rhs => rw [Matrix.hadRow.eq_def]
    by_cases hcond : aPtr < aEnd ∧ bPtr < bEnd
    · rw [dif_pos hcond, dif_pos ⟨hcond.2, hcond.1⟩]
      simp only []
      by_cases heq : A.COL_INDEX.getD aPtr 0 = B.COL_INDEX.getD bPtr 0
      · have heq' : B.COL_INDEX.getD bPtr 0 = A.COL_INDEX.getD aPtr 0 :=
          heq.symm
        rw [if_pos heq, if_pos heq']
        rw [ih (aPtr + 1) aEnd (bPtr + 1) bEnd (by omega)]
        rw [show A.V.getD aPtr 0 * B.V.getD bPtr 0
            = B.V.getD bPtr 0 * A.V.getD aPtr 0 from Int.mul_comm _ _]
        rw [heq]
      · have heq' : ¬(B.COL_INDEX.getD bPtr 0 = A.COL_INDEX.getD aPtr 0) :=
          fun h => heq h.symm
        rw [if_neg heq, if_neg heq']
        by_cases hlt : A.COL_INDEX.getD aPtr 0 < B.COL_INDEX.getD bPtr 0
        · have hbn : ¬(B.COL_INDEX.getD bPtr 0 < A.COL_INDEX.getD aPtr 0) := by
            omega
          rw [if_pos hlt, if_neg hbn]
          exact ih (aPtr + 1) aEnd bPtr bEnd (by omega)
        · have hbp : B.COL_INDEX.getD bPtr 0 < A.COL_INDEX.getD aPtr 0 := by
            omega
          rw [if_neg hlt, if_pos hbp]
          exact ih aPtr aEnd (bPtr + 1) bEnd (by omega)
    · rw [dif_neg hcond,
        dif_neg (fun h : bPtr < bEnd ∧ aPtr < aEnd => hcond ⟨h.2, h.1⟩)]

theorem addAcc_keys_nodup (A B : Matrix) (i : Nat) :
    ((Matrix.addAcc A B i).map Prod.fst).Nodup := by
  unfold Matrix.addAcc
  refine foldl_keys_nodup _ ?_ _ _ (foldl_keys_nodup _ ?_ _ _ (by simp))
  · intro a x ha; exact mapSet_keys_nodup _ _ _ ha
  · intro a x ha; exact mapSet_keys_nodup _ _ _ ha

theorem subAcc_keys_nodup (A B : Matrix) (i : Nat) :
    ((Matrix.subAcc A B i).map Prod.fst).Nodup := by
  unfold Matrix.subAcc
  refine foldl_keys_nodup _ ?_ _ _ (foldl_keys_nodup _ ?_ _ _ (by simp))
  · intro a x ha; exact mapSet_keys_nodup _ _ _ ha
  · intro a x ha; exact mapSet_keys_nodup _ _ _ ha

theorem mulAcc_keys_nodup (A B : Matrix) (i : Nat) :
    ((Matrix.mulAcc A B i).map Prod.fst).Nodup := by
  unfold Matrix.mulAcc
  refine foldl_keys_nodup _ ?_ _ _ (by simp)
  intro a x ha
  refine foldl_keys_nodup _ ?_ _ _ ha
  intro a' x' ha'
  exact mapSet_keys_nodup _ _ _ ha'

theorem addition_eq (A B : Matrix) (h1 : A.rows = B.rows)
    (h2 : A.cols = B.cols) :
    Matrix.addition A B = .ok (fromBlocks A.rows A.cols
      ((List.range A.rows.toNat).map (fun i => sortRow (Matrix.addAcc A B i)))) := by
  have hne : ¬(A.rows ≠ B.rows ∨ A.cols ≠ B.cols) := by
    push_neg; exact ⟨h1, h2⟩
  simp only [Matrix.addition, if_neg hne,
    foldl_emitSorted_eq (Matrix.addAcc A B), fromBlocks]
  simp only [List.nil_append, List.length_nil, Except.ok.injEq,
    Matrix.mk.injEq, true_and]
  rw [scanl_add_eq_cons_tail 0]
  simp

theorem subtract_eq (A B : Matrix) (h1 : A.rows = B.rows)
    (h2 : A.cols = B.cols) :
    Matrix.subtract A B = .ok (fromBlocks A.rows A.cols
      ((List.range A.rows.toNat).map (fun i => sortRow (Matrix.subAcc A B i)))) := by
  have hne : ¬(A.rows ≠ B.rows ∨ A.cols ≠ B.cols) := by
    push_neg; exact ⟨h1, h2⟩
  simp only [Matrix.subtract, if_neg hne,
    foldl_emitSorted_eq (Matrix.subAcc A B), fromBlocks]
  simp only [List.nil_append, List.length_nil, Except.ok.injEq,
    Matrix.mk.injEq, true_and]
  rw [scanl_add_eq_cons_tail 0]
  simp

theorem multiply_eq (A B : Matrix) (h : A.cols = B.rows) :
    Matrix.multiply A B = .ok (fromBlocks A.rows B.cols
      ((List.range (A.ROW_INDEX.length - 1)).map
        (fun i => sortRow (Matrix.mulAcc A B i)))) := by
  have hne : ¬(A.cols ≠ B.rows) := by push_neg; exact h
  simp only [Matrix.multiply, if_neg hne,
    foldl_emitSorted_eq (Matrix.mulAcc A B), fromBlocks]
  simp only [List.nil_append, List.length_nil, Except.ok.injEq,
    Matrix.mk.injEq, true_and]
  rw [scanl_add_eq_cons_tail 0]
  simp

/-! ### Dense-array compression -/

/-- The entries that row `i` of the dense input contributes after
compression: every in-range cell that exists, is numeric and non-zero,
paired with its column, in ascending column order. -/
def rowCells (cols : Int) (data : List (List (Option Int))) (i : Nat) :
    List (Nat × Int) :=
  (List.range cols.toNat).filterMap (fun j =>
    match Matrix.cellAt data i j with
    | some v => if v ≠ 0 then some (j, v) else none
    | none => none)

theorem sparse_inner_eq (data : List (List (Option Int))) (i : Nat) :
    ∀ (l : List Nat) (v : List Int) (c r : List Nat) (k : Nat),
    l.foldl (fun (st2 : List Int × List Nat × List Nat × Nat) j =>
        match Matrix.cellAt data i j with
        | some v =>
          if v ≠ 0 then
            (st2.1 ++ [v], st2.2.1 ++ [j], st2.2.2.1, st2.2.2.2 + 1)
          else st2
        | none => st2) (v, c, r, k)
      = (v ++ (l.filterMap (fun j =>
            match Matrix.cellAt data i j with
            | some v => if v ≠ 0 then some (j, v) else none
            | none => none)).map Prod.snd,
         c ++ (l.filterMap (fun j =>
            match Matrix.cellAt data i j with
            | some v => if v ≠ 0 then some (j, v) else none
            | none => none)).map Prod.fst,
         r,
         k + (l.filterMap (fun j =>
            match Matrix.cellAt data i j with
            | some v => if v ≠ 0 then some (j, v) else none
            | none => none)).length) := by
  intro l
  induction l with
  | nil => intro v c r k; simp
  | cons j t ih =>
    intro v c r k
    rw [List.foldl_cons, List.filterMap_cons]
    cases hcell : Matrix.cellAt data i j with
    | none => simp only []; rw [ih]
    | some x =>
      by_cases hx : x ≠ 0
      · simp only [if_pos hx]
        rw [ih]
        simp [Nat.add_assoc, Nat.add_comm 1]
      · simp only [if_neg hx]
        rw [ih]

/-- The inner (per-row) loop of `sparseData` as a function of the running
state. -/
def innerFold (cols : Int) (data : List (List (Option Int))) (i : Nat)
    (st : List Int × List Nat × List Nat × Nat) :
    List Int × List Nat × List Nat × Nat :=
  (List.range cols.toNat).foldl
    (fun (st2 : List Int × List Nat × List Nat × Nat) j =>
      match Matrix.cellAt data i j with
      | some v =>
        if v ≠ 0 then
          (st2.1 ++ [v], st2.2.1 ++ [j], st2.2.2.1, st2.2.2.2 + 1)
        else st2
      | none => st2) st

theorem sparse_inner_eq_row (cols : Int) (data : List (List (Option Int)))
    (i : Nat) (v : List Int) (c r : List Nat) (k : Nat) :
    innerFold cols data i (v, c, r, k)
      = (v ++ (rowCells cols data i).map Prod.snd,
         c ++ (rowCells cols data i).map Prod.fst,
         r, k + (rowCells cols data i).length) :=
  sparse_inner_eq data i (List.range cols.toNat) v c r k

theorem sparse_outer_eq (cols : Int) (data : List (List (Option Int))) :
    ∀ (l : List Nat) (v : List Int) (c r : List Nat),
    l.foldl (fun (st : List Int × List Nat × List Nat × Nat) i =>
        ((innerFold cols data i st).1,
         (innerFold cols data i st).2.1,
         (innerFold cols data i st).2.2.1 ++ [(innerFold cols data i st).2.2.2],
         (innerFold cols data i st).2.2.2))
      (v, c, r, v.length)
      = (v ++ ((l.map (rowCells cols data)).map
            (fun b => b.map Prod.snd)).flatten,
         c ++ ((l.map (rowCells cols data)).map
            (fun b => b.map Prod.fst)).flatten,
         r ++ (((l.map (rowCells cols data)).map List.length).scanl
            (· + ·) v.length).tail,
         v.length + ((l.map (rowCells cols data)).map List.length).sum) := by
  intro l
  induction l with
  | nil => intro v c r; simp [List.scanl_nil]
  | cons a t ih =>
    intro v c r
    rw [List.foldl_cons, sparse_inner_eq_row cols data a v c r v.length]
    simp only []
    have hlen : (v ++ (rowCells cols data a).map Prod.snd).length
        = v.length + (rowCells cols data a).length := by
      simp
    rw [show v.length + (rowCells cols data a).length
        = (v ++ (rowCells cols data a).map Prod.snd).length from hlen.symm]
    rw [ih]
    simp only [List.map_cons, List.flatten_cons, List.scanl_cons,
      List.singleton_append, List.tail_cons, Prod.mk.injEq]
    refine ⟨by simp, by simp, ?_, by simp; omega⟩
    rw [hlen, scanl_add_eq_cons_tail (v.length + (rowCells cols data a).length)]
    simp

/-- `construct` with dense data is the block assembly of the per-row
compressed cells. -/
theorem construct_eq_fromBlocks (rows cols : Int)
    (data : List (List (Option Int))) :
    Matrix.construct rows cols (some data)
      = fromBlocks rows cols
          ((List.range rows.toNat).map (rowCells cols data)) := by
  have h := sparse_outer_eq cols data (List.range rows.toNat) [] [] [0]
  have hcon : Matrix.construct rows cols (some data)
      = { rows := rows, cols := cols,
          V := ((List.range rows.toNat).foldl
            (fun (st : List Int × List Nat × List Nat × Nat) i =>
              ((innerFold cols data i st).1,
               (innerFold cols data i st).2.1,
               (innerFold cols data i st).2.2.1
                 ++ [(innerFold cols data i st).2.2.2],
               (innerFold cols data i st).2.2.2))
            ([], [], [0], ([] : List Int).length)).1,
          COL_INDEX := ((List.range rows.toNat).foldl
            (fun (st : List Int × List Nat × List Nat × Nat) i =>
              ((innerFold cols data i st).1,
               (innerFold cols data i st).2.1,
               (innerFold cols data i st).2.2.1
                 ++ [(innerFold cols data i st).2.2.2],
               (innerFold cols data i st).2.2.2))
            ([], [], [0], ([] : List Int).length)).2.1,
          ROW_INDEX := ((List.range rows.toNat).foldl
            (fun (st : List Int × List Nat × List Nat × Nat) i =>
              ((innerFold cols data i st).1,
               (innerFold cols data i st).2.1,
               (innerFold cols data i st).2.2.1
                 ++ [(innerFold cols data i st).2.2.2],
               (innerFold cols data i st).2.2.2))
            ([], [], [0], ([] : List Int).length)).2.2.1 } := rfl
  rw [hcon, h]
  simp only [fromBlocks, Matrix.mk.injEq, List.nil_append, List.length_nil,
    true_and]
  rw [scanl_add_eq_cons_tail 0]
  simp

theorem find?_filterMap_range'_none (f : Nat → Option (Nat × Int))
    (hf : ∀ j p, f j = some p → p.1 = j) :
    ∀ (n s jt : Nat), jt < s →
    ((List.range' s n).filterMap f).find? (fun p => p.1 = jt) = none := by
  intro n
  induction n with
  | zero => intro s jt _; simp
  | succ k ih =>
    intro s jt hjt
    rw [List.range'_succ, List.filterMap_cons]
    cases hfs : f s with
    | none => exact ih (s + 1) jt (by omega)
    | some p =>
      rw [List.find?_cons]
      have hps : p.1 = s := hf s p hfs
      have : (decide (p.1 = jt)) = false := by
        simp only [decide_eq_false_iff_not]
        omega
      rw [this]
      exact ih (s + 1) jt (by omega)

theorem find?_filterMap_range' (f : Nat → Option (Nat × Int))
    (hf : ∀ j p, f j = some p → p.1 = j) :
    ∀ (n s jt : Nat), s ≤ jt → jt < s + n →
    ((List.range' s n).filterMap f).find? (fun p => p.1 = jt) = f jt := by
  intro n
  induction n with
  | zero => intro s jt h1 h2; omega
  | succ k ih =>
    intro s jt h1 h2
    rw [List.range'_succ, List.filterMap_cons]
    by_cases hsj : jt = s
    · subst hsj
      cases hfs : f jt with
      | none =>
        exact find?_filterMap_range'_none f hf k (jt + 1) jt (by omega)
      | some p =>
        rw [List.find?_cons]
        have hps : p.1 = jt := hf jt p hfs
        rw [show (decide (p.1 = jt)) = true by simp [hps]]
    · cases hfs : f s with
      | none => exact ih (s + 1) jt (by omega) (by omega)
      | some p =>
        rw [List.find?_cons]
        have hps : p.1 = s := hf s p hfs
        rw [show (decide (p.1 = jt)) = false by
          simp only [decide_eq_false_iff_not]; omega]
        exact ih (s + 1) jt (by omega) (by omega)

/-! ### The reference Laplace expansion

`laplace` renders, over a dense function view `f : row → col → value` of
an `n × n` matrix, exactly the cofactor expansion the spec describes for
the determinant: base cases `n = 0 ↦ 1` and `n = 1 ↦ f 0 0`, and for
larger `n` the signed sum over row 0 of entry times minor determinant,
with the sign depending only on the column parity. -/

/-- The dense minor: delete row 0 and column `c`. -/
def minorF (f : Nat → Nat → Int) (c : Nat) : Nat → Nat → Int :=
  fun i j => f (i + 1) (if j < c then j else j + 1)

/-- First-row Laplace cofactor expansion of a dense `n × n` view. -/
def laplace : Nat → (Nat → Nat → Int) → Int
  | 0, _ => 1
  | 1, f => f 0 0
  | n + 2, f =>
    ((List.range (n + 2)).map (fun j =>
      (if j % 2 = 0 then (1 : Int) else -1) * f 0 j
        * laplace (n + 1) (minorF f j))).sum

/-- The value inside an `Except`, or 0 on an error. -/
def okD (e : Except MatrixError Int) : Int :=
  match e with
  | .ok v => v
  | .error _ => 0

/-- The structural facts the determinant recursion maintains, indexed by
the row count `n` it derives from `ROW_INDEX` (the shape fields `rows`
and `cols` play no role in the recursion — `csrMatrixSubmatrix` even
swaps them — so well-formedness must be tracked against `n`, with all
stored columns below `n`). -/
def DetWF (m : Matrix) (n : Nat) : Prop :=
  m.ROW_INDEX.length = n + 1 ∧
  m.ROW_INDEX.getD 0 0 = 0 ∧
  List.Chain' (· ≤ ·) m.ROW_INDEX ∧
  m.ROW_INDEX.getLastD 0 = m.V.length ∧
  m.COL_INDEX.length = m.V.length ∧
  (∀ r < n, List.Chain' (· < ·) (m.segCols r)) ∧
  (∀ c ∈ m.COL_INDEX, c < n) ∧
  (∀ v ∈ m.V, v ≠ 0)

/-- Deleting column `c` from a row block and shifting the larger columns
down (`csrMatrixSubmatrix`'s per-entry transformation). -/
def shrinkRow (c : Nat) (b : List (Nat × Int)) : List (Nat × Int) :=
  b.filterMap (fun p =>
    if p.1 = c then none
    else some ((if p.1 < c then p.1 else p.1 - 1), p.2))

theorem getLastD_eq_getD_pred (l : List Nat) (h : l ≠ []) :
    l.getLastD 0 = l.getD (l.length - 1) 0 := by
  induction l with
  | nil => exact absurd rfl h
  | cons a t ih =>
    cases t with
    | nil => rfl
    | cons b t' =>
      rw [List.getLastD_cons]
      rw [show (b :: t').getLastD a = (b :: t').getLastD 0 from rfl]
      rw [ih (by simp)]
      simp

theorem ROW_getD_mono (m : Matrix) (hch : List.Chain' (· ≤ ·) m.ROW_INDEX) :
    ∀ i j, i ≤ j → j < m.ROW_INDEX.length →
    m.ROW_INDEX.getD i 0 ≤ m.ROW_INDEX.getD j 0 := by
  intro i j hij hj
  rcases Nat.eq_or_lt_of_le hij with rfl | hlt
  · exact le_refl _
  · have hp := List.chain'_iff_pairwise.mp hch
    have := List.pairwise_iff_getElem.mp hp i j (by omega) hj hlt
    rw [List.getD_eq_getElem _ _ (by omega), List.getD_eq_getElem _ _ hj]
    exact this

theorem ROW_getD_le_len (m : Matrix) (n : Nat)
    (hlen : m.ROW_INDEX.length = n + 1)
    (hch : List.Chain' (· ≤ ·) m.ROW_INDEX)
    (hlast : m.ROW_INDEX.getLastD 0 = m.V.length) :
    ∀ i, i ≤ n → m.ROW_INDEX.getD i 0 ≤ m.V.length := by
  intro i hi
  have hne : m.ROW_INDEX ≠ [] := by
    intro hx
    rw [hx] at hlen
    simp at hlen
  have hlast' : m.ROW_INDEX.getD n 0 = m.V.length := by
    rw [← hlast, getLastD_eq_getD_pred _ hne, hlen]
    norm_num
  rw [← hlast']
  exact ROW_getD_mono m hch i n hi (by omega)
theorem foldl_range'_slices {β : Type} (CL : List Nat) (VL : List Int)
    (g : β → Nat → Int → β) (hcl : CL.length = VL.length) :
    ∀ (d a : Nat) (s0 : β), a + d ≤ VL.length →
    (List.range' a d).foldl (fun s j => g s (CL.getD j 0) (VL.getD j 0)) s0
      = (((CL.drop a).take d).zip ((VL.drop a).take d)).foldl
          (fun s p => g s p.1 p.2) s0 := by
  intro d
  induction d with
  | zero => intro a s0 _; simp
  | succ k ih =>
    intro a s0 h
    rw [List.range'_succ, List.foldl_cons]
    have ha : a < VL.length := by omega
    have hacl : a < CL.length := by omega
    rw [List.drop_eq_getElem_cons ha, List.drop_eq_getElem_cons hacl]
    rw [List.take_succ_cons, List.take_succ_cons, List.zip_cons_cons,
      List.foldl_cons]
    rw [List.getD_eq_getElem CL 0 hacl, List.getD_eq_getElem VL 0 ha]
    exact ih (a + 1) _ (by omega)

theorem map_range'_slices {β : Type} (CL : List Nat) (VL : List Int)
    (h : Nat → Int → β) (hcl : CL.length = VL.length) :
    ∀ (d a : Nat), a + d ≤ VL.length →
    (List.range' a d).map (fun j => h (CL.getD j 0) (VL.getD j 0))
      = (((CL.drop a).take d).zip ((VL.drop a).take d)).map
          (fun p => h p.1 p.2) := by
  intro d
  induction d with
  | zero => intro a _; simp
  | succ k ih =>
    intro a hle
    rw [List.range'_succ, List.map_cons]
    have ha : a < VL.length := by omega
    have hacl : a < CL.length := by omega
    rw [List.drop_eq_getElem_cons ha, List.drop_eq_getElem_cons hacl]
    rw [List.take_succ_cons, List.take_succ_cons, List.zip_cons_cons,
      List.map_cons]
    rw [List.getD_eq_getElem CL 0 hacl, List.getD_eq_getElem VL 0 ha]
    rw [ih (a + 1) (by omega)]

theorem foldl_range'_seg {β : Type} (m : Matrix) (i : Nat)
    (g : β → Nat → Int → β) (s0 : β)
    (hcl : m.COL_INDEX.length = m.V.length)
    (hab : m.ROW_INDEX.getD i 0 ≤ m.ROW_INDEX.getD (i + 1) 0)
    (hb : m.ROW_INDEX.getD (i + 1) 0 ≤ m.V.length) :
    (List.range' (m.ROW_INDEX.getD i 0)
        (m.ROW_INDEX.getD (i + 1) 0 - m.ROW_INDEX.getD i 0)).foldl
        (fun s j => g s (m.COL_INDEX.getD j 0) (m.V.getD j 0)) s0
      = (m.seg i).foldl (fun s p => g s p.1 p.2) s0 := by
  unfold Matrix.seg Matrix.segCols Matrix.segVals
  exact foldl_range'_slices _ _ g hcl _ _ s0 (by omega)

theorem map_range'_seg {β : Type} (m : Matrix) (i : Nat)
    (h : Nat → Int → β)
    (hcl : m.COL_INDEX.length = m.V.length)
    (hab : m.ROW_INDEX.getD i 0 ≤ m.ROW_INDEX.getD (i + 1) 0)
    (hb : m.ROW_INDEX.getD (i + 1) 0 ≤ m.V.length) :
    (List.range' (m.ROW_INDEX.getD i 0)
        (m.ROW_INDEX.getD (i + 1) 0 - m.ROW_INDEX.getD i 0)).map
        (fun j => h (m.COL_INDEX.getD j 0) (m.V.getD j 0))
      = (m.seg i).map (fun p => h p.1 p.2) := by
  unfold Matrix.seg Matrix.segCols Matrix.segVals
  exact map_range'_slices _ _ h hcl _ _ (by omega)

theorem segCols_length_eq (m : Matrix) (r : Nat)
    (hcl : m.COL_INDEX.length = m.V.length) :
    (m.segCols r).length = (m.segVals r).length := by
  unfold Matrix.segCols Matrix.segVals
  simp [List.length_take, hcl]

theorem seg_map_fst (m : Matrix) (r : Nat)
    (hcl : m.COL_INDEX.length = m.V.length) :
    (m.seg r).map Prod.fst = m.segCols r := by
  unfold Matrix.seg
  exact List.map_fst_zip _ _ (le_of_eq (segCols_length_eq m r hcl))

theorem seg_map_snd (m : Matrix) (r : Nat)
    (hcl : m.COL_INDEX.length = m.V.length) :
    (m.seg r).map Prod.snd = m.segVals r := by
  unfold Matrix.seg
  exact List.map_snd_zip _ _ (le_of_eq (segCols_length_eq m r hcl).symm)

/-- `get` is the association lookup in the row's `(column, value)`
pairs, for a row whose slice stays inside the buffers. -/
theorem get_eq_seg_find? (m : Matrix) (r c : Nat)
    (hcl : m.COL_INDEX.length = m.V.length)
    (hb : m.ROW_INDEX.getD (r + 1) 0 ≤ m.V.length) :
    m.get r c = (match (m.seg r).find? (fun p => p.1 = c) with
                 | none => 0
                 | some p => p.2) := by
  rw [← lookup_eq_find? (m.seg r) c, seg_map_fst m r hcl]
  unfold Matrix.get
  cases h : (m.segCols r).findIdx? (fun x => x = c) with
  | none => rfl
  | some i =>
    show m.V.getD (m.ROW_INDEX.getD r 0 + i) 0
      = ((m.seg r).map Prod.snd).getD i 0
    rw [seg_map_snd m r hcl]
    have hi : i < (m.segCols r).length := findIdx?_lt_length h
    have hi2 : i < m.ROW_INDEX.getD (r + 1) 0 - m.ROW_INDEX.getD r 0 := by
      have : (m.segCols r).length
          ≤ m.ROW_INDEX.getD (r + 1) 0 - m.ROW_INDEX.getD r 0 := by
        unfold Matrix.segCols
        simp [List.length_take]
      omega
    unfold Matrix.segVals
    rw [List.getD_eq_getElem?_getD]
    conv_rhs => rw [List.getD_eq_getElem?_getD, List.getElem?_take]
    rw [if_pos hi2, List.getElem?_drop]

theorem find?_of_mem_keysNodup (l : List (Nat × Int)) (k : Nat) (v : Int)
    (hnd : (l.map Prod.fst).Nodup) (hm : (k, v) ∈ l) :
    l.find? (fun p => p.1 = k) = some (k, v) := by
  induction l with
  | nil => exact absurd hm (by simp)
  | cons p t ih =>
    rw [List.find?_cons]
    rcases List.mem_cons.mp hm with rfl | hmt
    · simp
    · have hpk : ¬(p.1 = k) := by
        intro hpk
        rw [List.map_cons] at hnd
        have hk : k ∈ t.map Prod.fst :=
          List.mem_map.mpr ⟨(k, v), hmt, rfl⟩
        exact (List.nodup_cons.mp hnd).1 (hpk ▸ hk)
      rw [show (decide (p.1 = k)) = false by simpa using hpk]
      exact ih (List.nodup_cons.mp hnd).2 hmt

/-- The per-entry fold of `csrMatrixSubmatrix`'s inner loop, over a row's
`(column, value)` pairs, appends exactly the shrunken row. -/
theorem shrink_fold (c : Nat) (b : List (Nat × Int)) :
    ∀ (v : List Int) (cl : List Nat) (k : Nat),
    b.foldl (fun (st2 : List Int × List Nat × Nat) p =>
        if p.1 = c then st2
        else (st2.1 ++ [p.2],
              st2.2.1 ++ [if p.1 < c then p.1 else p.1 - 1],
              st2.2.2 + 1)) (v, cl, k)
      = (v ++ (shrinkRow c b).map Prod.snd,
         cl ++ (shrinkRow c b).map Prod.fst,
         k + (shrinkRow c b).length) := by
  induction b with
  | nil => intro v cl k; simp [shrinkRow]
  | cons p t ih =>
    intro v cl k
    rw [List.foldl_cons]
    by_cases hp : p.1 = c
    · rw [if_pos hp, ih]
      have hs : shrinkRow c (p :: t) = shrinkRow c t := by
        simp [shrinkRow, List.filterMap_cons, hp]
      rw [hs]
    · rw [if_neg hp, ih]
      have hs : shrinkRow c (p :: t)
          = ((if p.1 < c then p.1 else p.1 - 1), p.2) :: shrinkRow c t := by
        simp [shrinkRow, List.filterMap_cons, hp]
      rw [hs]
      simp only [List.map_cons, List.length_cons, Prod.mk.injEq]
      refine ⟨by simp, by simp, by omega⟩

/-- `subInner` on a row whose slice stays inside the buffers appends the
shrunken row block. -/
theorem subInner_eq (m : Matrix) (c i : Nat)
    (v : List Int) (cl : List Nat) (k : Nat)
    (hcl : m.COL_INDEX.length = m.V.length)
    (hab : m.ROW_INDEX.getD i 0 ≤ m.ROW_INDEX.getD (i + 1) 0)
    (hb : m.ROW_INDEX.getD (i + 1) 0 ≤ m.V.length) :
    subInner m c i (v, cl, k)
      = (v ++ (shrinkRow c (m.seg i)).map Prod.snd,
         cl ++ (shrinkRow c (m.seg i)).map Prod.fst,
         k + (shrinkRow c (m.seg i)).length) := by
  have h1 : subInner m c i (v, cl, k)
      = (m.seg i).foldl (fun (st2 : List Int × List Nat × Nat) p =>
          if p.1 = c then st2
          else (st2.1 ++ [p.2],
                st2.2.1 ++ [if p.1 < c then p.1 else p.1 - 1],
                st2.2.2 + 1)) (v, cl, k) :=
    foldl_range'_seg m i (fun st2 col val =>
      if col = c then st2
      else (st2.1 ++ [val],
            st2.2.1 ++ [if col < c then col else col - 1],
            st2.2.2 + 1)) (v, cl, k) hcl hab hb
  rw [h1, shrink_fold]

theorem getLastD_concat (l : List Nat) (a : Nat) :
    ∀ d, (l ++ [a]).getLastD d = a := by
  induction l with
  | nil => intro d; rfl
  | cons b t ih =>
    intro d
    rw [List.cons_append, List.getLastD_cons]
    exact ih b

/-- One non-excluded step of `csrMatrixSubmatrix`'s outer loop. -/
theorem csrSub_step (m : Matrix) (c a : Nat) (ha0 : a ≠ 0)
    (hcl : m.COL_INDEX.length = m.V.length)
    (hab : m.ROW_INDEX.getD a 0 ≤ m.ROW_INDEX.getD (a + 1) 0)
    (hb : m.ROW_INDEX.getD (a + 1) 0 ≤ m.V.length)
    (v : List Int) (cl r : List Nat) :
    (if a = 0 then ((v, cl, r) : List Int × List Nat × List Nat)
     else
       let st2 := subInner m c a ((v, cl, r).1, (v, cl, r).2.1, 0)
       (st2.1, st2.2.1,
        (v, cl, r).2.2 ++ [(v, cl, r).2.2.getLastD 0 + st2.2.2]))
      = (v ++ (shrinkRow c (m.seg a)).map Prod.snd,
         cl ++ (shrinkRow c (m.seg a)).map Prod.fst,
         r ++ [r.getLastD 0 + (shrinkRow c (m.seg a)).length]) := by
  simp only [if_neg ha0, subInner_eq m c a v cl 0 hcl hab hb, Nat.zero_add]

/-- The outer fold of `csrMatrixSubmatrix` with excluded row 0, over any
list of non-zero in-range row indices, appends the per-row shrunken
blocks and their running counts. -/
theorem csrSub_fold_eq (m : Matrix) (c : Nat)
    (hcl : m.COL_INDEX.length = m.V.length) :
    ∀ (l : List Nat),
    (∀ i ∈ l, i ≠ 0 ∧ m.ROW_INDEX.getD i 0 ≤ m.ROW_INDEX.getD (i + 1) 0 ∧
      m.ROW_INDEX.getD (i + 1) 0 ≤ m.V.length) →
    ∀ (v : List Int) (cl r : List Nat), r.getLastD 0 = v.length →
    l.foldl (fun (st : List Int × List Nat × List Nat) i =>
        if i = 0 then st
        else
          let st2 := subInner m c i (st.1, st.2.1, 0)
          (st2.1, st2.2.1, st.2.2 ++ [st.2.2.getLastD 0 + st2.2.2])) (v, cl, r)
      = (v ++ ((l.map (fun i => shrinkRow c (m.seg i))).map
            (fun b => b.map Prod.snd)).flatten,
         cl ++ ((l.map (fun i => shrinkRow c (m.seg i))).map
            (fun b => b.map Prod.fst)).flatten,
         r ++ (((l.map (fun i => shrinkRow c (m.seg i))).map List.length).scanl
            (· + ·) v.length).tail) := by
  intro l
  induction l with
  | nil => intro _ v cl r _; simp [List.scanl_nil]
  | cons a t ih =>
    intro hok v cl r hr
    obtain ⟨ha0, hab, hb⟩ := hok a (by simp)
    rw [List.foldl_cons, csrSub_step m c a ha0 hcl hab hb v cl r]
    rw [ih (fun i hi => hok i (List.mem_cons_of_mem a hi)) _ _ _
      (by rw [getLastD_concat, hr]; simp)]
    simp only [List.map_cons, List.flatten_cons, List.scanl_cons,
      List.singleton_append, List.tail_cons, Prod.mk.injEq]
    refine ⟨by simp, by simp, ?_⟩
    rw [scanl_add_eq_cons_tail (v.length + (shrinkRow c (m.seg a)).length),
      hr]
    simp [List.length_append, List.length_map]

/-- `csrMatrixSubmatrix` with excluded row 0, on a store whose row count
is `n`, is the block store of the shrunken rows `1 .. n-1` (with the
swapped shape fields the source writes). -/
theorem csrSub_eq (m : Matrix) (n : Nat) (c : Nat)
    (hlen : m.ROW_INDEX.length = n + 1)
    (hch : List.Chain' (· ≤ ·) m.ROW_INDEX)
    (hlast : m.ROW_INDEX.getLastD 0 = m.V.length)
    (hcl : m.COL_INDEX.length = m.V.length)
    (hn : 1 ≤ n) :
    csrSub m 0 c = fromBlocks m.cols m.rows
      ((List.range' 1 (n - 1)).map (fun i => shrinkRow c (m.seg i))) := by
  have hrange : List.range n = 0 :: List.range' 1 (n - 1) := by
    rw [List.range_eq_range']
    obtain ⟨k, rfl⟩ : ∃ k, n = k + 1 := ⟨n - 1, by omega⟩
    rw [List.range'_succ]
    norm_num
  have hok : ∀ i ∈ List.range' 1 (n - 1), i ≠ 0 ∧
      m.ROW_INDEX.getD i 0 ≤ m.ROW_INDEX.getD (i + 1) 0 ∧
      m.ROW_INDEX.getD (i + 1) 0 ≤ m.V.length := by
    intro i hi
    have hmem := List.mem_range'.mp hi
    refine ⟨by omega, ?_, ?_⟩
    · exact ROW_getD_mono m hch i (i + 1) (by omega) (by omega)
    · exact ROW_getD_le_len m n hlen hch hlast (i + 1) (by omega)
  have hfold := csrSub_fold_eq m c hcl (List.range' 1 (n - 1)) hok
    [] [] [0] rfl
  simp only [csrSub]
  rw [hlen]
  rw [show n + 1 - 1 = n by omega, hrange, List.foldl_cons]
  rw [if_pos (rfl : (0 : Nat) = 0)]
  rw [hfold]
  unfold fromBlocks
  simp only [List.nil_append, List.length_nil]
  conv_rhs => rw [scanl_add_eq_cons_tail 0]
  rw [List.singleton_append]

theorem fromBlocks_COL_length (rows cols : Int)
    (bs : List (List (Nat × Int))) :
    (fromBlocks rows cols bs).COL_INDEX.length
      = ((bs.map List.length)).sum := by
  simp only [fromBlocks, List.length_flatten, List.map_map]
  congr 1
  apply List.map_congr_left
  intro b _
  simp

/-- The shrunken row's column list, as a partial map of the original
column list. -/
theorem shrinkRow_map_fst (c : Nat) (b : List (Nat × Int)) :
    (shrinkRow c b).map Prod.fst
      = b.filterMap (fun p => if p.1 = c then none
          else some (if p.1 < c then p.1 else p.1 - 1)) := by
  unfold shrinkRow
  rw [List.map_filterMap]
  congr 1
  funext p
  by_cases hp : p.1 = c <;> simp [hp]

/-- Every shrunken entry comes from an original entry of the row, with
the value kept and the column shifted. -/
theorem shrinkRow_mem (c : Nat) (b : List (Nat × Int)) :
    ∀ p ∈ shrinkRow c b, ∃ q ∈ b, p.2 = q.2 ∧
      p.1 = (if q.1 < c then q.1 else q.1 - 1) ∧ q.1 ≠ c := by
  intro p hp
  unfold shrinkRow at hp
  obtain ⟨q, hq, hg⟩ := List.mem_filterMap.mp hp
  by_cases hqc : q.1 = c
  · rw [if_pos hqc] at hg
    exact absurd hg (by simp)
  · rw [if_neg hqc] at hg
    have := Option.some.inj hg
    subst this
    exact ⟨q, hq, rfl, rfl, hqc⟩

/-- Deleting a column and shifting keeps the strict ascent of a row's
columns. -/
theorem shrinkRow_chain (c : Nat) (b : List (Nat × Int))
    (h : List.Chain' (· < ·) (b.map Prod.fst)) :
    List.Chain' (· < ·) ((shrinkRow c b).map Prod.fst) := by
  rw [shrinkRow_map_fst]
  rw [List.chain'_iff_pairwise] at h ⊢
  rw [List.pairwise_filterMap]
  have hp : List.Pairwise (fun p q : Nat × Int => p.1 < q.1) b :=
    List.pairwise_map.mp h
  refine hp.imp ?_
  intro p q hpq x hx y hy
  by_cases hpc : p.1 = c
  · rw [if_pos hpc] at hx
    simp at hx
  · rw [if_neg hpc] at hx
    by_cases hqc : q.1 = c
    · rw [if_pos hqc] at hy
      simp at hy
    · rw [if_neg hqc] at hy
      simp only [Option.mem_def, Option.some.injEq] at hx hy
      subst hx
      subst hy
      split_ifs <;> omega

/-- A stored column of a row segment is a stored column of the matrix. -/
theorem seg_fst_mem_COL (m : Matrix) (i : Nat) (q : Nat × Int)
    (hcl : m.COL_INDEX.length = m.V.length)
    (hq : q ∈ m.seg i) : q.1 ∈ m.COL_INDEX := by
  have h1 : q.1 ∈ (m.seg i).map Prod.fst := List.mem_map_of_mem _ hq
  rw [seg_map_fst m i hcl] at h1
  unfold Matrix.segCols at h1
  exact List.mem_of_mem_drop (List.mem_of_mem_take h1)

/-- A stored value of a row segment is a stored value of the matrix. -/
theorem seg_snd_mem_V (m : Matrix) (i : Nat) (q : Nat × Int)
    (hcl : m.COL_INDEX.length = m.V.length)
    (hq : q ∈ m.seg i) : q.2 ∈ m.V := by
  have h1 : q.2 ∈ (m.seg i).map Prod.snd := List.mem_map_of_mem _ hq
  rw [seg_map_snd m i hcl] at h1
  unfold Matrix.segVals at h1
  exact List.mem_of_mem_drop (List.mem_of_mem_take h1)

/-- The submatrix of a well-formed `n × n` store (delete row 0 and a
stored column `c < n`) is well-formed at size `n - 1`. -/
theorem DetWF_csrSub (m : Matrix) (n c : Nat) (hwf : DetWF m n)
    (hn : 2 ≤ n) (hc : c < n) :
    DetWF (csrSub m 0 c) (n - 1) := by
  obtain ⟨hlen, hhead, hch, hlast, hcl, hsort, hbound, hnz⟩ := hwf
  rw [csrSub_eq m n c hlen hch hlast hcl (by omega)]
  have hblk : ∀ b ∈ (List.range' 1 (n - 1)).map
      (fun i => shrinkRow c (m.seg i)),
      List.Chain' (· < ·) (b.map Prod.fst) ∧ ∀ p ∈ b, p.2 ≠ 0 := by
    intro b hb
    obtain ⟨i, hi, rfl⟩ := List.mem_map.mp hb
    have hi' := List.mem_range'.mp hi
    constructor
    · apply shrinkRow_chain
      rw [seg_map_fst m i hcl]
      exact hsort i (by omega)
    · intro p hp
      obtain ⟨q, hq, hpq, _, _⟩ := shrinkRow_mem c (m.seg i) p hp
      rw [hpq]
      exact hnz _ (seg_snd_mem_V m i q hcl hq)
  have hinv := fromBlocks_CSRInv m.cols m.rows _ hblk
  obtain ⟨hrows, hnz', hhead', hch', hlast'⟩ := hinv
  have hbsl : ((List.range' 1 (n - 1)).map
      (fun i => shrinkRow c (m.seg i))).length = n - 1 := by
    simp [List.length_map, List.length_range']
  refine ⟨?_, hhead', hch', hlast', ?_, ?_, ?_, hnz'⟩
  · rw [fromBlocks_ROW_length, hbsl]
  · rw [fromBlocks_COL_length, fromBlocks_V_length]
  · intro r hr
    exact hrows r (by rw [fromBlocks_ROW_length, hbsl]; omega)
  · intro x hx
    simp only [fromBlocks, List.mem_flatten, List.mem_map] at hx
    obtain ⟨lv, ⟨b, ⟨i, hi, rfl⟩, rfl⟩, hxl⟩ := hx
    obtain ⟨p, hpmem, rfl⟩ := List.mem_map.mp hxl
    obtain ⟨q, hq, _, hshift, hqc⟩ := shrinkRow_mem c (m.seg i) p hpmem
    have hqn : q.1 < n := hbound _ (seg_fst_mem_COL m i q hcl hq)
    rw [hshift]
    split_ifs <;> omega

/-- One step of `csrMatrixDeterminant`'s accumulating fold over the
stored entries of row 0, viewed on `(column, value)` pairs. -/
def detStep (m : Matrix) (acc : Except MatrixError Int) (p : Nat × Int) :
    Except MatrixError Int :=
  match acc with
  | .error e => .error e
  | .ok s =>
    match csrDet (csrSub m 0 p.1) with
    | .error e => .error e
    | .ok cofactor =>
      .ok (s + (if (0 + p.1) % 2 = 0 then (1 : Int) else -1)
            * p.2 * cofactor)

theorem detStep_ok (m : Matrix) (s : Int) (p : Nat × Int) :
    detStep m (.ok s) p
      = match csrDet (csrSub m 0 p.1) with
        | .error e => .error e
        | .ok cofactor =>
          .ok (s + (if (0 + p.1) % 2 = 0 then (1 : Int) else -1)
                * p.2 * cofactor) := rfl

theorem detFold_error (m : Matrix) (l : List (Nat × Int)) (e : MatrixError) :
    l.foldl (detStep m) (.error e) = .error e := by
  induction l with
  | nil => rfl
  | cons p t ih =>
    rw [List.foldl_cons]
    exact ih

/-- Inversion of the determinant fold: a successful fold means every
recursive sub-determinant succeeded, and the result is the running sum of
the signed cofactor terms. -/
theorem detFold_ok (m : Matrix) (l : List (Nat × Int)) :
    ∀ s d : Int, l.foldl (detStep m) (.ok s) = .ok d →
    (∀ p ∈ l, ∃ cf, csrDet (csrSub m 0 p.1) = .ok cf) ∧
    d = s + (l.map (fun p =>
        (if (0 + p.1) % 2 = 0 then (1 : Int) else -1) * p.2
          * okD (csrDet (csrSub m 0 p.1)))).sum := by
  induction l with
  | nil =>
    intro s d h
    have hs : s = d := Except.ok.inj h
    subst hs
    exact ⟨by simp, by simp⟩
  | cons p t ih =>
    intro s d h
    rw [List.foldl_cons, detStep_ok] at h
    cases hdet : csrDet (csrSub m 0 p.1) with
    | error e =>
      exfalso
      rw [hdet, detFold_error] at h
      exact Except.noConfusion h
    | ok cf =>
      rw [hdet] at h
      obtain ⟨hall, hsum⟩ := ih _ _ h
      constructor
      · intro q hq
        rcases List.mem_cons.mp hq with rfl | hqt
        · exact ⟨cf, hdet⟩
        · exact hall q hqt
      · rw [List.map_cons, List.sum_cons, hdet, hsum]
        have hok : okD (Except.ok cf) = cf := rfl
        rw [hok]
        ring

/-- Looking a column up in a shrunken row is looking the unshifted
column up in the original row. -/
theorem find?_shrinkRow (c j : Nat) (b : List (Nat × Int)) :
    (shrinkRow c b).find? (fun p => p.1 = j)
      = (b.find? (fun q => q.1 = (if j < c then j else j + 1))).map
          (fun q => ((if q.1 < c then q.1 else q.1 - 1), q.2)) := by
  induction b with
  | nil => rfl
  | cons q t ih =>
    by_cases hqc : q.1 = c
    · have hs : shrinkRow c (q :: t) = shrinkRow c t := by
        simp [shrinkRow, List.filterMap_cons, hqc]
      rw [hs, List.find?_cons, ih]
      have hd : (decide (q.1 = if j < c then j else j + 1)) = false := by
        simp only [decide_eq_false_iff_not]
        split_ifs <;> omega
      rw [hd]
    · have hs : shrinkRow c (q :: t)
          = ((if q.1 < c then q.1 else q.1 - 1), q.2) :: shrinkRow c t := by
        simp [shrinkRow, List.filterMap_cons, hqc]
      rw [hs, List.find?_cons, List.find?_cons]
      by_cases hqj : q.1 = (if j < c then j else j + 1)
      · have h1 : (decide ((if q.1 < c then q.1 else q.1 - 1) = j)) = true := by
          simp only [decide_eq_true_eq]
          split_ifs at hqj ⊢ <;> omega
        have h2 : (decide (q.1 = if j < c then j else j + 1)) = true := by
          simpa using hqj
        rw [h1, h2]
        rfl
      · have h1 : (decide ((if q.1 < c then q.1 else q.1 - 1) = j)) = false := by
          simp only [decide_eq_false_iff_not]
          split_ifs at hqj ⊢ <;> omega
        have h2 : (decide (q.1 = if j < c then j else j + 1)) = false := by
          simpa using hqj
        rw [h1, h2]
        exact ih

/-- Reading the submatrix is reading the original store one row down and
with the column shifted past the deleted one: the dense projection of
`csrMatrixSubmatrix` is exactly the first-row/column-`c` minor. -/
theorem get_csrSub (m : Matrix) (n c : Nat) (hwf : DetWF m n)
    (hn : 2 ≤ n) (i j : Nat) (hi : i < n - 1) :
    (csrSub m 0 c).get i j
      = m.get (i + 1) (if j < c then j else j + 1) := by
  obtain ⟨hlen, hhead, hch, hlast, hcl, hsort, hbound, hnz⟩ := hwf
  rw [csrSub_eq m n c hlen hch hlast hcl (by omega)]
  rw [fromBlocks_get _ _ _ i j
    (by simp only [List.length_map, List.length_range']; omega)]
  have hgetd : ((List.range' 1 (n - 1)).map
      (fun r => shrinkRow c (m.seg r))).getD i []
      = shrinkRow c (m.seg (i + 1)) := by
    rw [List.getD_eq_getElem _ _
      (by simp only [List.length_map, List.length_range']; omega)]
    rw [List.getElem_map, List.getElem_range']
    rw [show 1 + 1 * i = i + 1 by omega]
  rw [hgetd, find?_shrinkRow]
  rw [get_eq_seg_find? m (i + 1) _ hcl
    (ROW_getD_le_len m n hlen hch hlast (i + 1 + 1) (by omega))]
  cases hf : (m.seg (i + 1)).find?
      (fun q => q.1 = if j < c then j else j + 1) with
  | none => rfl
  | some q => rfl

/-- The Laplace expansion only consults the dense view inside the
`n × n` square. -/
theorem laplace_congr :
    ∀ (n : Nat) (f g : Nat → Nat → Int),
    (∀ i < n, ∀ j < n, f i j = g i j) → laplace n f = laplace n g := by
  intro n
  induction n using Nat.strong_induction_on with
  | _ n ih =>
    match n with
    | 0 => intro f g h; rfl
    | 1 => intro f g h; exact h 0 (by omega) 0 (by omega)
    | (k + 2) =>
      intro f g h
      simp only [laplace]
      congr 1
      apply List.map_congr_left
      intro j hj
      have hjk : j < k + 2 := List.mem_range.mp hj
      rw [h 0 (by omega) j hjk]
      have hmin : laplace (k + 1) (minorF f j) = laplace (k + 1) (minorF g j) := by
        apply ih (k + 1) (by omega)
        intro a ha b hb
        unfold minorF
        apply h
        · omega
        · split_ifs <;> omega
      rw [hmin]

/-- Summing a term over all columns equals summing it over a distinct
in-range subset outside which the term vanishes. -/
theorem sum_range_eq_sum_cols (n : Nat) (cols : List Nat) (t : Nat → Int)
    (hnd : cols.Nodup) (hsub : ∀ c ∈ cols, c < n)
    (hzero : ∀ j < n, j ∉ cols → t j = 0) :
    ((List.range n).map t).sum = (cols.map t).sum := by
  rw [← List.sum_toFinset t (List.nodup_range n), ← List.sum_toFinset t hnd]
  have htf : (List.range n).toFinset = Finset.range n := by
    ext x
    simp [List.mem_toFinset, List.mem_range, Finset.mem_range]
  rw [htf]
  refine (Finset.sum_subset ?_ ?_).symm
  · intro x hx
    rw [List.mem_toFinset] at hx
    rw [Finset.mem_range]
    exact hsub x hx
  · intro x hxr hxc
    exact hzero x (Finset.mem_range.mp hxr)
      (fun hmem => hxc (List.mem_toFinset.mpr hmem))

/-- Every successful run of `csrMatrixDeterminant` on a well-formed
`n × n` store returns the first-row Laplace cofactor expansion of the
store's dense projection. -/
theorem csrDet_ok_laplace :
    ∀ (n : Nat) (m : Matrix) (d : Int), DetWF m n → csrDet m = .ok d →
    d = laplace n (fun i j => m.get i j) := by
  intro n
  induction n using Nat.strong_induction_on with
  | _ n ih =>
    intro m d hwf hdet
    obtain ⟨hlen, hhead, hch, hlast, hcl, hsort, hbound, hnz⟩ := hwf
    cases n with
    | zero =>
      rw [csrDet.eq_def] at hdet
      rw [dif_pos (by omega)] at hdet
      have h1 : (1 : Int) = d := Except.ok.inj hdet
      subst h1
      rfl
    | succ n' =>
      cases n' with
      | zero =>
        rw [csrDet.eq_def] at hdet
        rw [dif_neg (by omega), dif_pos (by omega)] at hdet
        have hvd : m.V.getD 0 0 = d := Except.ok.inj hdet
        have hne : m.ROW_INDEX ≠ [] := by
          intro hx
          rw [hx] at hlen
          simp at hlen
        have hroweq : m.ROW_INDEX.getD (0 + 1) 0 = m.V.length := by
          rw [← hlast, getLastD_eq_getD_pred _ hne, hlen]
        have hseg : m.segCols 0 = m.COL_INDEX := by
          unfold Matrix.segCols
          rw [hhead, hroweq, List.drop_zero, Nat.sub_zero, ← hcl,
            List.take_length]
        have hget00 : m.get 0 0 = m.V.getD 0 0 := by
          unfold Matrix.get
          rw [hseg]
          cases hC : m.COL_INDEX with
          | nil =>
            have hv : m.V = [] := by
              rw [hC] at hcl
              exact List.length_eq_zero.mp hcl.symm
            rw [hv]
            rfl
          | cons c0 t =>
            have hc0 : c0 = 0 := by
              have h1 := hbound c0 (by rw [hC]; simp)
              omega
            subst hc0
            rw [List.findIdx?_cons,
              if_pos (show (decide ((0 : Nat) = 0)) = true from rfl), hhead]
        show d = m.get 0 0
        rw [hget00]
        exact hvd.symm
      | succ k =>
        rw [csrDet.eq_def] at hdet
        rw [dif_neg (by omega), dif_neg (by omega)] at hdet
        simp only [] at hdet
        split at hdet
        · simp at hdet
        · split at hdet
          · simp at hdet
          · have hab0 : m.ROW_INDEX.getD 0 0 ≤ m.ROW_INDEX.getD (0 + 1) 0 :=
              ROW_getD_mono m hch 0 1 (by omega) (by omega)
            have hb0 : m.ROW_INDEX.getD (0 + 1) 0 ≤ m.V.length :=
              ROW_getD_le_len m _ hlen hch hlast 1 (by omega)
            have hdet2 : (m.seg 0).foldl (detStep m) (Except.ok 0)
                = Except.ok d := by
              have h1 : (m.seg 0).foldl (detStep m) (Except.ok 0)
                  = (List.range' (m.ROW_INDEX.getD 0 0)
                      (m.ROW_INDEX.getD (0 + 1) 0
                        - m.ROW_INDEX.getD 0 0)).foldl
                      (fun (acc : Except MatrixError Int) jx =>
                        detStep m acc
                          (m.COL_INDEX.getD jx 0, m.V.getD jx 0))
                      (Except.ok 0) :=
                (foldl_range'_seg m 0
                  (fun acc col val => detStep m acc (col, val))
                  (Except.ok 0) hcl hab0 hb0).symm
              rw [h1]
              exact hdet
            obtain ⟨hall, hsum⟩ := detFold_ok m (m.seg 0) 0 d hdet2
            have hch0 : List.Chain' (· < ·) (m.segCols 0) :=
              hsort 0 (by omega)
            have hnd0 : ((m.seg 0).map Prod.fst).Nodup := by
              rw [seg_map_fst m 0 hcl]
              exact (List.chain'_iff_pairwise.mp hch0).imp
                (fun h => Nat.ne_of_lt h)
            have hget0 : ∀ p ∈ m.seg 0, m.get 0 p.1 = p.2 := by
              intro p hp
              rw [get_eq_seg_find? m 0 p.1 hcl hb0]
              rw [find?_of_mem_keysNodup (m.seg 0) p.1 p.2 hnd0 hp]
            have hgz : ∀ j, j ∉ m.segCols 0 → m.get 0 j = 0 := by
              intro j hnot
              rw [get_eq_seg_find? m 0 j hcl hb0]
              have hfind : (m.seg 0).find? (fun p => p.1 = j) = none := by
                rw [List.find?_eq_none]
                intro p hp
                simp only [decide_eq_true_eq]
                intro hpj
                apply hnot
                rw [← hpj, ← seg_map_fst m 0 hcl]
                exact List.mem_map_of_mem Prod.fst hp
              rw [hfind]
            have hA : ((m.seg 0).map (fun p =>
                (if (0 + p.1) % 2 = 0 then (1 : Int) else -1) * p.2
                  * okD (csrDet (csrSub m 0 p.1)))).sum
                = ((m.segCols 0).map (fun j =>
                    (if (0 + j) % 2 = 0 then (1 : Int) else -1) * m.get 0 j
                      * okD (csrDet (csrSub m 0 j)))).sum := by
              rw [← seg_map_fst m 0 hcl, List.map_map]
              congr 1
              apply List.map_congr_left
              intro p hp
              simp only [Function.comp_apply]
              rw [hget0 p hp]
            have hcolsub : ∀ c ∈ m.segCols 0, c < k + 1 + 1 := by
              intro c hcc
              refine hbound c ?_
              unfold Matrix.segCols at hcc
              exact List.mem_of_mem_drop (List.mem_of_mem_take hcc)
            have hndcols : (m.segCols 0).Nodup :=
              (List.chain'_iff_pairwise.mp hch0).imp
                (fun h => Nat.ne_of_lt h)
            have hzero : ∀ j < k + 1 + 1, j ∉ m.segCols 0 →
                ((if (0 + j) % 2 = 0 then (1 : Int) else -1) * m.get 0 j
                  * okD (csrDet (csrSub m 0 j))) = 0 := by
              intro j _ hnot
              rw [hgz j hnot]
              ring
            have hB := sum_range_eq_sum_cols (k + 1 + 1) (m.segCols 0)
              (fun j => (if (0 + j) % 2 = 0 then (1 : Int) else -1)
                * m.get 0 j * okD (csrDet (csrSub m 0 j)))
              hndcols hcolsub hzero
            have hC : ∀ j ∈ List.range (k + 1 + 1),
                ((if (0 + j) % 2 = 0 then (1 : Int) else -1) * m.get 0 j
                  * okD (csrDet (csrSub m 0 j)))
                = ((if j % 2 = 0 then (1 : Int) else -1) * m.get 0 j
                    * laplace (k + 1)
                        (minorF (fun a b => m.get a b) j)) := by
              intro j hj
              rw [Nat.zero_add]
              by_cases hjmem : j ∈ m.segCols 0
              · have hpex : ∃ p ∈ m.seg 0, p.1 = j := by
                  rw [← seg_map_fst m 0 hcl] at hjmem
                  obtain ⟨p, hp, hpe⟩ := List.mem_map.mp hjmem
                  exact ⟨p, hp, hpe⟩
                obtain ⟨p, hp, rfl⟩ := hpex
                obtain ⟨cf, hcf⟩ := hall p hp
                rw [hcf]
                have hcfv : okD (Except.ok cf) = cf := rfl
                rw [hcfv]
                have hsubwf : DetWF (csrSub m 0 p.1) (k + 1) :=
                  DetWF_csrSub m (k + 1 + 1) p.1
                    ⟨hlen, hhead, hch, hlast, hcl, hsort, hbound, hnz⟩
                    (by omega)
                    (hbound p.1 (seg_fst_mem_COL m 0 p hcl hp))
                have hrec := ih (k + 1) (by omega) (csrSub m 0 p.1) cf
                  hsubwf hcf
                rw [hrec]
                have hlap : laplace (k + 1)
                    (fun a b => (csrSub m 0 p.1).get a b)
                    = laplace (k + 1)
                        (minorF (fun a b => m.get a b) p.1) := by
                  apply laplace_congr
                  intro a ha b hb
                  rw [get_csrSub m (k + 1 + 1) p.1
                    ⟨hlen, hhead, hch, hlast, hcl, hsort, hbound, hnz⟩
                    (by omega) a b (by omega)]
                  rfl
                rw [hlap]
              · rw [hgz j hjmem]
                ring
            have hCmap : (List.range (k + 1 + 1)).map (fun j =>
                (if (0 + j) % 2 = 0 then (1 : Int) else -1) * m.get 0 j
                  * okD (csrDet (csrSub m 0 j)))
                = (List.range (k + 1 + 1)).map (fun j =>
                    (if j % 2 = 0 then (1 : Int) else -1) * m.get 0 j
                      * laplace (k + 1)
                          (minorF (fun a b => m.get a b) j)) :=
              List.map_congr_left hC
            have hlapeq : laplace (k + 1 + 1) (fun a b => m.get a b)
                = ((List.range (k + 1 + 1)).map (fun j =>
                    (if j % 2 = 0 then (1 : Int) else -1) * m.get 0 j
                      * laplace (k + 1)
                          (minorF (fun a b => m.get a b) j))).sum := by
              show laplace (k + 2) (fun a b => m.get a b) = _
              simp only [laplace]
            rw [hsum, hA, ← hB, hCmap, hlapeq, zero_add]

/-- The structural CSR well-formedness of a store, as the data model of
the spec describes it: `ROW_INDEX` has length `rows + 1`, starts at 0, is
non-decreasing and ends at the stored-entry count; `COL_INDEX` is aligned
with `V`, per-row strictly increasing and bounded by `cols`; no stored
value is zero. -/
def WF (m : Matrix) : Prop :=
  m.ROW_INDEX.length = m.rows.toNat + 1 ∧
  m.ROW_INDEX.getD 0 0 = 0 ∧
  List.Chain' (· ≤ ·) m.ROW_INDEX ∧
  m.ROW_INDEX.getLastD 0 = m.V.length ∧
  m.COL_INDEX.length = m.V.length ∧
  (∀ r < m.rows.toNat, List.Chain' (· < ·) (m.segCols r)) ∧
  (∀ c ∈ m.COL_INDEX, c < m.cols.toNat) ∧
  (∀ v ∈ m.V, v ≠ 0)

/-- Executable strict ascent test, used to decide `List.Chain' (· < ·)`
on concrete lists. -/
def ascBool : List Nat → Bool
  | [] => true
  | [_] => true
  | a :: b :: t => (decide (a < b)) && ascBool (b :: t)

/-- Executable non-decrease test, used to decide `List.Chain' (· ≤ ·)`
on concrete lists. -/
def nondecBool : List Nat → Bool
  | [] => true
  | [_] => true
  | a :: b :: t => (decide (a ≤ b)) && nondecBool (b :: t)

theorem ascBool_iff (l : List Nat) :
    ascBool l = true ↔ List.Chain' (· < ·) l := by
  induction l with
  | nil => simp [ascBool]
  | cons a t ih =>
    cases t with
    | nil => simp [ascBool]
    | cons b t' =>
      rw [ascBool, List.chain'_cons, Bool.and_eq_true, decide_eq_true_eq, ih]

theorem nondecBool_iff (l : List Nat) :
    nondecBool l = true ↔ List.Chain' (· ≤ ·) l := by
  induction l with
  | nil => simp [nondecBool]
  | cons a t ih =>
    cases t with
    | nil => simp [nondecBool]
    | cons b t' =>
      rw [nondecBool, List.chain'_cons, Bool.and_eq_true, decide_eq_true_eq, ih]

/-- Executable form of `WF`. -/
def WFb (m : Matrix) : Bool :=
  (m.ROW_INDEX.length == m.rows.toNat + 1) &&
  (m.ROW_INDEX.getD 0 0 == 0) &&
  nondecBool m.ROW_INDEX &&
  (m.ROW_INDEX.getLastD 0 == m.V.length) &&
  (m.COL_INDEX.length == m.V.length) &&
  ((List.range m.rows.toNat).all (fun r => ascBool (m.segCols r))) &&
  (m.COL_INDEX.all (fun c => c < m.cols.toNat)) &&
  (m.V.all (fun v => !(v == 0)))

theorem WF_iff (m : Matrix) : WF m ↔ WFb m = true := by
  unfold WF WFb
  simp only [Bool.and_eq_true, beq_iff_eq, ascBool_iff, nondecBool_iff,
    List.all_eq_true, List.mem_range, decide_eq_true_eq, Bool.not_eq_true',
    beq_eq_false_iff_ne, ne_eq]
  tauto

instance (m : Matrix) : Decidable (WF m) :=
  decidable_of_iff (WFb m = true) (WF_iff m).symm

/-- The dense 1×2 row `[[0, 5]]`: a single stored entry at column 1. -/
def exRow : Matrix := Matrix.construct 1 2 (some [[some 0, some 5]])

/-- The dense 2×2 store of the spec's literal scenario
`Matrix(2,2,[[1,2],[3,4]])`. -/
def ex22 : Matrix :=
  Matrix.construct 2 2 (some [[some 1, some 2], [some 3, some 4]])

/-- A square 2×2 store whose second column is empty:
`Matrix(2,2,[[1,0],[3,0]])`. -/
def ex22c : Matrix :=
  Matrix.construct 2 2 (some [[some 1, some 0], [some 3, some 0]])

/-- The fully populated 2×3 store `Matrix(2,3,[[1,2,3],[4,5,6]])`. -/
def ex23full : Matrix :=
  Matrix.construct 2 3 (some [[some 1, some 2, some 3], [some 4, some 5, some 6]])

/-- A 2×3 store whose stored columns happen to satisfy the determinant's
squareness test: `Matrix(2,3,[[1,2,0],[3,4,0]])`. -/
def ex23sp : Matrix :=
  Matrix.construct 2 3 (some [[some 1, some 2, some 0], [some 3, some 4, some 0]])

/-- The dense 1×1 store `Matrix(1,1,[[1]])`. -/
def ex11 : Matrix := Matrix.construct 1 1 (some [[some 1]])

/-- C1: on the well-formed store built from `[[0, 5]]` (one entry, column
1), `set(0, 0, 7)` must, per the claim, insert the new entry at the
sorted position, giving per-row columns `[0, 1]`.  The code instead
appends at the end of the row segment: the result's `COL_INDEX` is
`[1, 0]`, whose row-0 slice is not strictly increasing, so the sorted
column invariant is broken. -/
theorem c1_set_appends_not_sorted :
    WF exRow ∧
    (exRow.set 0 0 7).COL_INDEX = [1, 0] ∧
    ¬ List.Chain' (· < ·) ((exRow.set 0 0 7).segCols 0) := by
  refine ⟨by decide, by rfl, ?_⟩
  rw [← ascBool_iff]
  decide

/-- C2: on `Matrix(1,1,[[1]])`, `map(v ↦ v + 2, strict := false)` mutates
the receiver (its `V` becomes `[1, 3]` and its `ROW_INDEX` grows to
`[0, 1, 1]`) and returns a store with empty buffers, contradicting the
claim that `map` never mutates the receiver under either mode. -/
theorem c2_map_nonstrict_mutates :
    (ex11.map (fun v _ _ => v + 2) false).1 ≠ ex11 ∧
    (ex11.map (fun v _ _ => v + 2) false).1.V = [1, 3] ∧
    (ex11.map (fun v _ _ => v + 2) false).1.ROW_INDEX = [0, 1, 1] ∧
    (ex11.map (fun v _ _ => v + 2) false).2.V = [] ∧
    (ex11.map (fun v _ _ => v + 2) false).2.COL_INDEX = [] := by
  refine ⟨?_, by rfl, by rfl, by rfl, by rfl⟩
  intro h
  have hv := congrArg Matrix.V h
  simp only [show (ex11.map (fun v _ _ => v + 2) false).1.V = [1, 3] from rfl,
    show ex11.V = [1] from rfl] at hv
  exact absurd hv (by decide)

/-- C5 counterexample: constructing with `rows = 0`, `cols = 0` (both
non-positive) does not fail with `InvalidShape`; the constructor performs
no validation and returns the empty store. -/
theorem c5_construct_never_validates :
    Matrix.constructE 0 0 none ≠ .error .InvalidShape ∧
    Matrix.constructE 0 0 none =
      .ok { rows := 0, cols := 0, V := [], COL_INDEX := [], ROW_INDEX := [0] } := by
  refine ⟨?_, rfl⟩
  intro h
  simp only [Matrix.constructE] at h
  exact Except.noConfusion h

/-- C5 amended: for every non-positive shape the construction (without
dense data) still succeeds, returning a store that records the given
`rows` and `cols` unchanged with empty `V`/`COL_INDEX` and
`ROW_INDEX = [0]`. -/
theorem c5_construct_nonpositive_ok (rows cols : Int)
    (h : rows ≤ 0 ∨ cols ≤ 0) :
    Matrix.constructE rows cols none =
      .ok { rows := rows, cols := cols, V := [], COL_INDEX := [], ROW_INDEX := [0] } := by
  rfl

/-- C5 witness: the amended theorem applied at `rows = -1`, `cols = 0`. -/
theorem c5_construct_nonpositive_ok_witness :
    Matrix.constructE (-1) 0 none =
      .ok { rows := -1, cols := 0, V := [], COL_INDEX := [], ROW_INDEX := [0] } :=
  c5_construct_nonpositive_ok (-1) 0 (Or.inl (by norm_num))

/-- C10: for an in-range cell `(row, col)` whose column is absent from
row `row`, `set(row, col, 0)` does nothing: the code reaches the
insert branch (index not found) and the `value !== 0` guard fails, so no
buffer is touched. -/
theorem c10_set_zero_absent_noop (m : Matrix) (row col : Nat)
    (hrow : (row : Int) < m.rows) (hcol : (col : Int) < m.cols)
    (habs : col ∉ m.segCols row) :
    m.set row col 0 = m := by
  have hfind : (m.segCols row).findIdx? (fun c => c = col) = none := by
    rw [List.findIdx?_eq_none_iff]
    intro x hx
    simp only [decide_eq_false_iff_not]
    intro hxe
    exact habs (hxe ▸ hx)
  simp only [Matrix.set, hfind]
  exact if_neg (by norm_num)

/-- C10 witness: on the store from `[[0, 5]]` the cell `(0, 0)` is
in-range and its column is absent, and `set(0, 0, 0)` leaves the store
unchanged. -/
theorem c10_set_zero_absent_noop_witness :
    exRow.set 0 0 0 = exRow :=
  c10_set_zero_absent_noop exRow 0 0 (by decide) (by decide) (by decide)

/-- C9: for shape-compatible operands — with no assumption at all on the
operands' buffers, so unsorted or duplicated per-row columns and stored
zeros are allowed — every store `addition`, `subtract` or `multiply`
returns satisfies the three CSR invariants: strictly increasing columns
within each delimited row, no stored zero, and a `ROW_INDEX` that starts
at 0, never decreases, and ends at the stored-entry count. -/
theorem c9_merge_ops_invariants (A B : Matrix) :
    (A.rows = B.rows → A.cols = B.cols →
      ∀ C, Matrix.addition A B = .ok C → CSRInv C) ∧
    (A.rows = B.rows → A.cols = B.cols →
      ∀ C, Matrix.subtract A B = .ok C → CSRInv C) ∧
    (A.cols = B.rows →
      ∀ C, Matrix.multiply A B = .ok C → CSRInv C) := by
  refine ⟨?_, ?_, ?_⟩
  · intro h1 h2 C hC
    rw [addition_eq A B h1 h2] at hC
    obtain rfl : _ = C := (Except.ok.injEq _ _).mp hC
    apply fromBlocks_CSRInv
    intro b hb
    obtain ⟨i, _, rfl⟩ := List.mem_map.mp hb
    exact ⟨sortRow_chain _ (addAcc_keys_nodup A B i), sortRow_nz _⟩
  · intro h1 h2 C hC
    rw [subtract_eq A B h1 h2] at hC
    obtain rfl : _ = C := (Except.ok.injEq _ _).mp hC
    apply fromBlocks_CSRInv
    intro b hb
    obtain ⟨i, _, rfl⟩ := List.mem_map.mp hb
    exact ⟨sortRow_chain _ (subAcc_keys_nodup A B i), sortRow_nz _⟩
  · intro h C hC
    rw [multiply_eq A B h] at hC
    obtain rfl : _ = C := (Except.ok.injEq _ _).mp hC
    apply fromBlocks_CSRInv
    intro b hb
    obtain ⟨i, _, rfl⟩ := List.mem_map.mp hb
    exact ⟨sortRow_chain _ (mulAcc_keys_nodup A B i), sortRow_nz _⟩

/-- A deliberately ill-formed 2×2 operand: row 0 stores the duplicate
columns `[1, 1]` (unsorted would also do) and the explicit zero value
`0`. -/
def exC9A : Matrix :=
  { rows := 2, cols := 2, V := [0, 5, 3], COL_INDEX := [1, 1, 0],
    ROW_INDEX := [0, 2, 3] }

/-- A 2×2 operand with unsorted rows relative to `exC9A`. -/
def exC9B : Matrix :=
  { rows := 2, cols := 2, V := [2, 7], COL_INDEX := [1, 0],
    ROW_INDEX := [0, 1, 2] }

/-- The store of `ex23sp` written out: what `Matrix(2,3,[[1,2,0],[3,4,0]])`
compresses to. -/
def ex23spLit : Matrix :=
  { rows := 2, cols := 3, V := [1, 2, 3, 4], COL_INDEX := [0, 1, 0, 1],
    ROW_INDEX := [0, 2, 4] }

/-- C4 counterexample: the 2×3 store `[[1,2,0],[3,4,0]]` is not square,
yet `determinant()` does not fail — the code only checks
`max(COL_INDEX) + 1 == ROW_INDEX.length - 1`, which here is `2 == 2`, and
it returns -2. -/
theorem c4_not_square_counterexample :
    ex23sp.rows ≠ ex23sp.cols ∧ csrDet ex23sp = .ok (-2) := by
  refine ⟨by decide, ?_⟩
  rw [show ex23sp = ex23spLit from by decide]
  have h0 : csrDet (csrSub ex23spLit 0 0) = .ok 4 := by
    rw [show csrSub ex23spLit 0 0 = { rows := 3, cols := 2, V := [4], COL_INDEX := [0], ROW_INDEX := [0, 1] } from by decide]
    rw [csrDet.eq_def]
    norm_num
  have h1 : csrDet (csrSub ex23spLit 0 1) = .ok 3 := by
    rw [show csrSub ex23spLit 0 1 = { rows := 3, cols := 2, V := [3], COL_INDEX := [0], ROW_INDEX := [0, 1] } from by decide]
    rw [csrDet.eq_def]
    norm_num
  rw [csrDet.eq_def]
  norm_num [ex23spLit]
  rw [show (List.range' 0 2 : List Nat) = [0, 1] from rfl]
  simp only [List.foldl_cons, List.foldl_nil]
  norm_num [show ∀ c, csrSub ex23spLit 0 c = csrSub { rows := 2, cols := 3, V := [1, 2, 3, 4], COL_INDEX := [0, 1, 0, 1], ROW_INDEX := [0, 2, 4] } 0 c from fun c => rfl] at h0 h1
  norm_num [h0, h1]

/-- C4 amended: `determinant()` fails with `NotSquareMatrix` exactly
through its own test — whenever `n := ROW_INDEX.length - 1 ≥ 2` and
`max(COL_INDEX) + 1` differs from `n` (including the empty-`COL_INDEX`
case, where JS `Math.max()` is `-Infinity`). -/
theorem c4_det_not_square_check (m : Matrix)
    (h2 : 2 ≤ m.ROW_INDEX.length - 1)
    (hmx : ∀ mx, m.COL_INDEX.max? = some mx →
      mx + 1 ≠ m.ROW_INDEX.length - 1) :
    csrDet m = .error .NotSquareMatrix := by
  rw [csrDet.eq_def]
  rw [dif_neg (by omega), dif_neg (by omega)]
  simp only []
  cases hm : m.COL_INDEX.max? with
  | none => rfl
  | some mx =>
    have hcond : m.ROW_INDEX.length - 1 ≠ mx + 1 :=
      fun h => (hmx mx hm) h.symm
    simp only [if_pos hcond]

/-- C4 witness: the fully populated 2×3 store `[[1,2,3],[4,5,6]]` has
`max(COL_INDEX) + 1 = 3 ≠ 2 = n`, so the theorem applies and
`determinant()` fails with `NotSquareMatrix`. -/
theorem c4_det_not_square_check_witness :
    csrDet ex23full = .error .NotSquareMatrix := by
  refine c4_det_not_square_check ex23full (by decide) ?_
  intro mx hmx
  rw [show ex23full.COL_INDEX.max? = some 2 from by decide] at hmx
  cases hmx
  decide

/-- C8: a store built from dense data reads back, at every in-range cell,
the source value when the source row exists and the cell is numeric and
non-zero, and 0 for every other in-range cell (missing row, missing or
non-numeric cell — modelled as `none` — or a zero value). -/
theorem c8_construct_get (rows cols : Int) (data : List (List (Option Int)))
    (i j : Nat) (hi : (i : Int) < rows) (hj : (j : Int) < cols) :
    (Matrix.construct rows cols (some data)).get i j
      = (match Matrix.cellAt data i j with
         | some v => if v = 0 then 0 else v
         | none => 0) := by
  have hi' : i < rows.toNat := by omega
  have hj' : j < cols.toNat := by omega
  rw [construct_eq_fromBlocks]
  rw [fromBlocks_get rows cols _ i j (by simpa using hi')]
  have hgetb : ((List.range rows.toNat).map (rowCells cols data)).getD i []
      = rowCells cols data i := by
    rw [List.getD_eq_getElem _ _ (by simpa using hi'), List.getElem_map,
      List.getElem_range]
  rw [hgetb]
  have hfind : (rowCells cols data i).find? (fun p => p.1 = j)
      = (match Matrix.cellAt data i j with
         | some v => if v ≠ 0 then some (j, v) else none
         | none => none) := by
    unfold rowCells
    rw [List.range_eq_range']
    exact find?_filterMap_range' _
      (fun j' p hp => by
        revert hp
        cases Matrix.cellAt data i j' with
        | none => intro hp; exact absurd hp (by simp)
        | some v =>
          intro hp
          by_cases hv : v ≠ 0
          · simp only [if_pos hv] at hp
            cases hp
            rfl
          · simp only [if_neg hv] at hp
            exact Option.noConfusion hp)
      cols.toNat 0 j (by omega) (by simpa using hj')
  rw [hfind]
  cases Matrix.cellAt data i j with
  | none => rfl
  | some v =>
    by_cases hv : v = 0
    · have h0 : ¬(v ≠ 0) := by simpa using hv
      simp only [if_neg h0, if_pos hv]
    · have h1 : v ≠ 0 := hv
      simp only [if_pos h1, if_neg hv]

/-- The spec's literal dense ingestion input
`[[10,20],[0,30,0,40],[0,0,50,60,70],[0,0,0,0,0,80]]`. -/
def d46 : List (List (Option Int)) :=
  [[some 10, some 20], [some 0, some 30, some 0, some 40],
   [some 0, some 0, some 50, some 60, some 70],
   [some 0, some 0, some 0, some 0, some 0, some 80]]

/-- C8 witness: on the spec's literal 4×6 scenario, the theorem applied
at cell `(1, 3)` yields the stored value 40. -/
theorem c8_construct_get_witness :
    (Matrix.construct 4 6 (some d46)).get 1 3 = 40 := by
  have h := c8_construct_get 4 6 d46 1 3 (by norm_num) (by norm_num)
  rw [h]
  rfl

/-- C7: for equal-shaped operands satisfying the sorted-column invariant,
the Hadamard product is commutative — the two calls return identical
stores (hence the same shape and the same dense projection). -/
theorem c7_hadamard_comm (A B : Matrix) (hr : A.rows = B.rows)
    (hc : A.cols = B.cols)
    (hA : ∀ r < A.rows.toNat, List.Chain' (· < ·) (A.segCols r))
    (hB : ∀ r < B.rows.toNat, List.Chain' (· < ·) (B.segCols r)) :
    Matrix.hadamard A B = Matrix.hadamard B A := by
  have hne1 : ¬(A.rows ≠ B.rows ∨ A.cols ≠ B.cols) := by
    push_neg; exact ⟨hr, hc⟩
  have hne2 : ¬(B.rows ≠ A.rows ∨ B.cols ≠ A.cols) := by
    push_neg; exact ⟨hr.symm, hc.symm⟩
  simp only [Matrix.hadamard, if_neg hne1, if_neg hne2]
  have hrowAt : ∀ i, Matrix.hadRowAt A B i = Matrix.hadRowAt B A i := by
    intro i
    unfold Matrix.hadRowAt
    exact hadRow_comm A B _ _ _ _ _ (le_refl _)
  have hfold : ∀ (l : List Nat) (st : List Int × List Nat × List Nat),
      l.foldl (fun st i => Matrix.pushRow st (Matrix.hadRowAt A B i)) st
        = l.foldl (fun st i => Matrix.pushRow st (Matrix.hadRowAt B A i)) st := by
    intro l
    induction l with
    | nil => intro st; rfl
    | cons a t ihl =>
      intro st
      rw [List.foldl_cons, List.foldl_cons, hrowAt, ihl]
  rw [hr, hc, hfold]

/-- The spec's literal Hadamard operand `Matrix(2,2,[[2,5],[1,7]])`. -/
def exHadA : Matrix :=
  Matrix.construct 2 2 (some [[some 2, some 5], [some 1, some 7]])

/-- The spec's literal Hadamard operand `Matrix(2,2,[[3,7],[2,9]])`. -/
def exHadB : Matrix :=
  Matrix.construct 2 2 (some [[some 3, some 7], [some 2, some 9]])

/-- C7 witness: the theorem applied to the spec's literal Hadamard
scenario operands, whose rows are sorted and whose shapes agree. -/
theorem c7_hadamard_comm_witness :
    Matrix.hadamard exHadA exHadB = Matrix.hadamard exHadB exHadA := by
  refine c7_hadamard_comm exHadA exHadB rfl rfl ?_ ?_
  · intro r hrlt
    have h2 : r < 2 := hrlt
    interval_cases r
    · rw [← ascBool_iff]; decide
    · rw [← ascBool_iff]; decide
  · intro r hrlt
    have h2 : r < 2 := hrlt
    interval_cases r
    · rw [← ascBool_iff]; decide
    · rw [← ascBool_iff]; decide

/-- The store `addition` produces on the C9 witness operands. -/
def exC9Add : Matrix :=
  { rows := 2, cols := 2, V := [7, 10], COL_INDEX := [1, 0],
    ROW_INDEX := [0, 1, 2] }

/-- The store `subtract` produces on the C9 witness operands. -/
def exC9Sub : Matrix :=
  { rows := 2, cols := 2, V := [3, -4], COL_INDEX := [1, 0],
    ROW_INDEX := [0, 1, 2] }

/-- The store `multiply` produces on the C9 witness operands. -/
def exC9Mul : Matrix :=
  { rows := 2, cols := 2, V := [35, 6], COL_INDEX := [0, 1],
    ROW_INDEX := [0, 1, 2] }

/-- C9 witness: the three operations applied to the concrete ill-formed
operands produce these stores, and by the theorem each satisfies the
claimed invariants. -/
theorem c9_merge_ops_invariants_witness :
    (Matrix.addition exC9A exC9B = .ok exC9Add ∧ CSRInv exC9Add) ∧
    (Matrix.subtract exC9A exC9B = .ok exC9Sub ∧ CSRInv exC9Sub) ∧
    (Matrix.multiply exC9A exC9B = .ok exC9Mul ∧ CSRInv exC9Mul) := by
  have h := c9_merge_ops_invariants exC9A exC9B
  have hr2 : (List.range exC9A.rows.toNat) = [0, 1] := rfl
  have hr2' : (List.range (exC9A.ROW_INDEX.length - 1)) = [0, 1] := rfl
  have hs1 : sortRow [((1 : Nat), (7 : Int))] = [(1, 7)] := by
    simp [sortRow, List.mergeSort_singleton]
  have hs2 : sortRow [((0 : Nat), (10 : Int))] = [(0, 10)] := by
    simp [sortRow, List.mergeSort_singleton]
  have hs3 : sortRow [((1 : Nat), (3 : Int))] = [(1, 3)] := by
    simp [sortRow, List.mergeSort_singleton]
  have hs4 : sortRow [((0 : Nat), (-4 : Int))] = [(0, -4)] := by
    simp [sortRow, List.mergeSort_singleton]
  have hs5 : sortRow [((0 : Nat), (35 : Int))] = [(0, 35)] := by
    simp [sortRow, List.mergeSort_singleton]
  have hs6 : sortRow [((1 : Nat), (6 : Int))] = [(1, 6)] := by
    simp [sortRow, List.mergeSort_singleton]
  have hadd : Matrix.addition exC9A exC9B = .ok exC9Add := by
    rw [addition_eq exC9A exC9B rfl rfl, hr2, List.map_cons, List.map_cons,
      List.map_nil, show Matrix.addAcc exC9A exC9B 0 = [(1, 7)] from rfl,
      show Matrix.addAcc exC9A exC9B 1 = [(0, 10)] from rfl, hs1, hs2]
    rfl
  have hsub : Matrix.subtract exC9A exC9B = .ok exC9Sub := by
    rw [subtract_eq exC9A exC9B rfl rfl, hr2, List.map_cons, List.map_cons,
      List.map_nil, show Matrix.subAcc exC9A exC9B 0 = [(1, 3)] from rfl,
      show Matrix.subAcc exC9A exC9B 1 = [(0, -4)] from rfl, hs3, hs4]
    rfl
  have hmul : Matrix.multiply exC9A exC9B = .ok exC9Mul := by
    rw [multiply_eq exC9A exC9B rfl, hr2', List.map_cons, List.map_cons,
      List.map_nil, show Matrix.mulAcc exC9A exC9B 0 = [(0, 35)] from rfl,
      show Matrix.mulAcc exC9A exC9B 1 = [(1, 6)] from rfl, hs5, hs6]
    rfl
  exact ⟨⟨hadd, h.1 rfl rfl _ hadd⟩, ⟨hsub, h.2.1 rfl rfl _ hsub⟩,
    ⟨hmul, h.2.2 rfl _ hmul⟩⟩

/-- The store of `ex22` written out: what `Matrix(2,2,[[1,2],[3,4]])`
compresses to. -/
def ex22Lit : Matrix :=
  { rows := 2, cols := 2, V := [1, 2, 3, 4], COL_INDEX := [0, 1, 0, 1],
    ROW_INDEX := [0, 2, 4] }

/-- C3 counterexample: the square 2×2 well-formed store
`Matrix(2,2,[[1,0],[3,0]])` (second column empty) satisfies every CSR
invariant, yet `determinant()` does not equal any Laplace value — it
fails with `NotSquareMatrix`, because the code's only squareness test is
`max(COL_INDEX) + 1 == n`, which a square store with an empty trailing
column flunks. -/
theorem c3_det_square_can_fail :
    WF ex22c ∧ ex22c.rows = ex22c.cols ∧
    ex22c.determinant = .error .NotSquareMatrix := by
  refine ⟨by decide, by decide, ?_⟩
  show csrDet ex22c = .error .NotSquareMatrix
  rw [csrDet.eq_def]
  rw [dif_neg (by decide), dif_neg (by decide)]
  simp only []
  rw [show ex22c.COL_INDEX.max? = some 0 from by decide]
  simp only []
  rw [if_pos (by decide)]

/-- C3 (amended): on every square store satisfying the CSR invariants,
whenever `determinant()` returns a value at all, that value is the
first-row Laplace cofactor expansion of the store's dense projection
(sign = +1 for even column else -1, base cases `n = 0 ↦ 1` and
`n = 1 ↦` the value at `(0,0)` or 0).  The run is not guaranteed to
return a value: see the counterexample, where a square well-formed store
fails the code's `max(COL_INDEX) + 1 == n` test. -/
theorem c3_determinant_laplace (m : Matrix) (d : Int)
    (hwf : WF m) (hsq : m.rows = m.cols)
    (hdet : m.determinant = .ok d) :
    d = laplace m.rows.toNat (fun i j => m.get i j) := by
  obtain ⟨hlen, hhead, hch, hlast, hcl, hsort, hbound, hnz⟩ := hwf
  have hb' : ∀ c ∈ m.COL_INDEX, c < m.rows.toNat := by
    intro c hc
    have h1 := hbound c hc
    rw [hsq]
    exact h1
  exact csrDet_ok_laplace m.rows.toNat m d
    ⟨hlen, hhead, hch, hlast, hcl, hsort, hb', hnz⟩ hdet

/-- C3 witness: the spec's literal scenario.  `Matrix(2,2,[[1,2],[3,4]])`
is well formed and square, `determinant()` returns -2, and the theorem
equates that with the Laplace expansion of its dense projection. -/
theorem c3_determinant_laplace_witness :
    WF ex22 ∧ ex22.rows = ex22.cols ∧ ex22.determinant = .ok (-2) ∧
    (-2 : Int) = laplace ex22.rows.toNat (fun i j => ex22.get i j) := by
  have h1 : WF ex22 := by decide
  have h2 : ex22.rows = ex22.cols := by decide
  have h3 : ex22.determinant = .ok (-2) := by
    show csrDet ex22 = .ok (-2)
    rw [show ex22 = ex22Lit from by decide]
    have h0 : csrDet (csrSub ex22Lit 0 0) = .ok 4 := by
      rw [show csrSub ex22Lit 0 0 = { rows := 2, cols := 2, V := [4], COL_INDEX := [0], ROW_INDEX := [0, 1] } from by decide]
      rw [csrDet.eq_def]
      norm_num
    have h1' : csrDet (csrSub ex22Lit 0 1) = .ok 3 := by
      rw [show csrSub ex22Lit 0 1 = { rows := 2, cols := 2, V := [3], COL_INDEX := [0], ROW_INDEX := [0, 1] } from by decide]
      rw [csrDet.eq_def]
      norm_num
    rw [csrDet.eq_def]
    norm_num [ex22Lit]
    rw [show (List.range' 0 2 : List Nat) = [0, 1] from rfl]
    simp only [List.foldl_cons, List.foldl_nil]
    norm_num [show ∀ c, csrSub ex22Lit 0 c = csrSub { rows := 2, cols := 2, V := [1, 2, 3, 4], COL_INDEX := [0, 1, 0, 1], ROW_INDEX := [0, 2, 4] } 0 c from fun c => rfl] at h0 h1'
    norm_num [h0, h1']
  exact ⟨h1, h2, h3, c3_determinant_laplace ex22 (-2) h1 h2 h3⟩

/-! ### The bucket transpose, characterised

`transpose()` counts entries per column, prefix-sums the counts into the
output `ROW_INDEX`, and scatters each entry `(i, col, v)` to the next
free position of its column's bucket.  The development below shows the
result is exactly the block store of the per-column `(row, value)` lists
taken in row-major order. -/

theorem getD_append_right' {α : Type} (l1 l2 : List α) (d : α) (q : Nat)
    (h : l1.length ≤ q) :
    (l1 ++ l2).getD q d = l2.getD (q - l1.length) d := by
  rw [List.getD_eq_getElem?_getD, List.getElem?_append_right h,
    ← List.getD_eq_getElem?_getD]

theorem getD_oob {α : Type} (l : List α) (d : α) (q : Nat)
    (h : l.length ≤ q) :
    l.getD q d = d := by
  rw [List.getD_eq_getElem?_getD, List.getElem?_eq_none h]
  rfl

theorem getD_replicate_self {α : Type} (d : α) :
    ∀ (n k : Nat), (List.replicate n d).getD k d = d := by
  intro n
  induction n with
  | zero => intro k; rfl
  | succ j ih =>
    intro k
    cases k with
    | zero => rfl
    | succ kk => exact ih kk

theorem getD_listWrite {α : Type} (l : List α) (i : Nat) (d v : α)
    (q : Nat) :
    (listWrite l i d v).getD q d = if q = i then v else l.getD q d := by
  unfold listWrite
  by_cases hi : i < l.length
  · rw [if_pos hi]
    rw [List.getD_eq_getElem?_getD]
    conv_rhs => rw [List.getD_eq_getElem?_getD]
    by_cases hq : q = i
    · subst hq
      rw [if_pos rfl, List.getElem?_set_self (by omega)]
      rfl
    · rw [if_neg hq, List.getElem?_set_ne (fun h => hq h.symm)]
  · rw [if_neg hi]
    have hlen2 : (l ++ List.replicate (i - l.length) d).length = i := by
      simp only [List.length_append, List.length_replicate]
      omega
    by_cases hq1 : q < l.length
    · rw [if_neg (by omega)]
      rw [List.getD_append _ _ d q (by omega), List.getD_append _ _ d q hq1]
    · by_cases hq2 : q = i
      · subst hq2
        rw [if_pos rfl]
        rw [getD_append_right' _ _ d q (by omega), hlen2]
        rw [Nat.sub_self]
        rfl
      · rw [if_neg hq2]
        by_cases hq3 : q < i
        · rw [List.getD_append _ _ d q (by omega),
            getD_append_right' _ _ d q (by omega),
            getD_replicate_self, getD_oob _ _ _ (by omega)]
        · rw [getD_oob _ _ _ (by simp [List.length_append,
              List.length_replicate]; omega),
            getD_oob _ _ _ (by omega)]

theorem length_listWrite {α : Type} (l : List α) (i : Nat) (d v : α) :
    (listWrite l i d v).length = max l.length (i + 1) := by
  unfold listWrite
  split_ifs with h
  · rw [List.length_set]
    omega
  · simp only [List.length_append, List.length_replicate,
      List.length_cons, List.length_nil]
    omega

theorem getD_set_bounded {α : Type} (d : α) :
    ∀ (l : List α) (i : Nat) (v : α) (q : Nat), i < l.length →
    (l.set i v).getD q d = if q = i then v else l.getD q d := by
  intro l
  induction l with
  | nil => intro i v q h; simp at h
  | cons a t ih =>
    intro i v q h
    cases i with
    | zero =>
      cases q with
      | zero => simp
      | succ qq => simp
    | succ ii =>
      cases q with
      | zero => simp
      | succ qq =>
        simp only [List.set_cons_succ, List.getD_cons_succ]
        rw [ih ii v qq (by simpa using h)]
        by_cases hq : qq = ii <;> simp [hq]

theorem getD_concat_length {α : Type} (d x : α) :
    ∀ l : List α, (l ++ [x]).getD l.length d = x := by
  intro l
  induction l with
  | nil => rfl
  | cons a t ih => exact ih

theorem ext_getD {α : Type} (d : α) :
    ∀ (l1 l2 : List α), l1.length = l2.length →
    (∀ i, i < l1.length → l1.getD i d = l2.getD i d) → l1 = l2 := by
  intro l1
  induction l1 with
  | nil =>
    intro l2 hl _
    cases l2 with
    | nil => rfl
    | cons b t2 => simp at hl
  | cons a t ih =>
    intro l2 hl h
    cases l2 with
    | nil => simp at hl
    | cons b t2 =>
      have h0 : a = b := h 0 (by simp)
      have ht : t = t2 := by
        refine ih t2 (by simpa using hl) ?_
        intro i hi
        exact h (i + 1) (by simpa using hi)
      rw [h0, ht]

/-- Fold a list through its positional reads: the index loop over
`range' a d` reading `l.getD` is the fold over the slice itself. -/
theorem foldl_range_getD {β : Type} (l : List Nat) (g : β → Nat → β) :
    ∀ (d a : Nat) (s : β), a + d ≤ l.length →
    (List.range' a d).foldl (fun s i => g s (l.getD i 0)) s
      = ((l.drop a).take d).foldl g s := by
  intro d
  induction d with
  | zero => intro a s _; simp
  | succ k ih =>
    intro a s h
    rw [List.range'_succ, List.foldl_cons]
    have ha : a < l.length := by omega
    rw [List.drop_eq_getElem_cons ha, List.take_succ_cons, List.foldl_cons]
    rw [List.getD_eq_getElem l 0 ha]
    exact ih (a + 1) _ (by omega)

/-- One write of the scatter loop, on a `(row, column, value)` triple:
bump the column's cursor and place value and row at the claimed
position. -/
def scatStep (st : List Nat × List Int × List Nat)
    (e : Nat × Nat × Int) : List Nat × List Int × List Nat :=
  let pos := st.1.getD e.2.1 0
  (listWrite st.1 e.2.1 0 (pos + 1),
   listWrite st.2.1 pos 0 e.2.2,
   listWrite st.2.2 pos 0 e.1)

/-- The `(row, column, value)` triples of a store, in row-major order:
the order the scatter loop visits them. -/
def ents (m : Matrix) : List (Nat × Nat × Int) :=
  ((List.range m.rows.toNat).map
    (fun i => (m.seg i).map (fun p => (i, p.1, p.2)))).flatten

/-- The `(row, value)` pairs of the triples falling in column `c`. -/
def colFilter (E : List (Nat × Nat × Int)) (c : Nat) : List (Nat × Int) :=
  E.filterMap (fun e => if e.2.1 = c then some (e.1, e.2.2) else none)

/-- Output row `c` of the transpose: column `c`'s entries in row-major
order. -/
def colBlock (m : Matrix) (c : Nat) : List (Nat × Int) :=
  colFilter (ents m) c

def tBlocks (m : Matrix) : List (List (Nat × Int)) :=
  (List.range m.cols.toNat).map (fun c => colBlock m c)

/-- The per-column entry counts (`T_ROW_INDEX` after the first loop). -/
def cntsOf (m : Matrix) : List Nat :=
  m.COL_INDEX.foldl
    (fun t col => listWrite t (col + 1) 0 (t.getD (col + 1) 0 + 1))
    (List.replicate (m.cols.toNat + 1) 0)

/-- `T_ROW_INDEX` after the prefix-sum loop. -/
def tROWOf (m : Matrix) : List Nat :=
  (List.range' 1 m.cols.toNat).foldl
    (fun t i => t.set i (t.getD i 0 + t.getD (i - 1) 0)) (cntsOf m)

/-- The counting loop read back: bucket `q` ends at its initial value
plus the number of occurrences of column `q - 1`. -/
theorem count_fold_getD (cl : List Nat) :
    ∀ (t : List Nat) (q : Nat),
    (cl.foldl (fun t col => listWrite t (col + 1) 0 (t.getD (col + 1) 0 + 1))
        t).getD q 0
      = t.getD q 0 + (if 1 ≤ q then cl.count (q - 1) else 0) := by
  induction cl with
  | nil => intro t q; simp
  | cons col rest ih =>
    intro t q
    rw [List.foldl_cons, ih, getD_listWrite]
    by_cases h0 : 1 ≤ q
    · rw [if_pos h0, if_pos h0]
      by_cases hq : q = col + 1
      · subst hq
        rw [if_pos rfl]
        rw [show col + 1 - 1 = col from by omega]
        have hcc : (col :: rest).count col = rest.count col + 1 := by
          simp [List.count_cons]
        rw [hcc]
        omega
      · rw [if_neg hq]
        have hcc : (col :: rest).count (q - 1) = rest.count (q - 1) := by
          rw [List.count_cons]
          have hne : ¬(col = q - 1) := by omega
          simp [hne]
        rw [hcc]
    · rw [if_neg h0, if_neg h0]
      rw [if_neg (by omega : ¬(q = col + 1))]

theorem count_fold_length (cl : List Nat) (N : Nat) (hb : ∀ c ∈ cl, c < N) :
    ∀ t : List Nat, t.length = N + 1 →
    (cl.foldl (fun t col => listWrite t (col + 1) 0 (t.getD (col + 1) 0 + 1))
        t).length = N + 1 := by
  induction cl with
  | nil => intro t h; exact h
  | cons col rest ih =>
    intro t h
    rw [List.foldl_cons]
    refine ih (fun c hc => hb c (List.mem_cons_of_mem _ hc)) _ ?_
    rw [length_listWrite]
    have := hb col (by simp)
    omega

/-- The prefix-sum loop: positions below the cursor hold running sums of
the counts, positions at or above it are untouched. -/
theorem prefix_fold (counts : List Nat) :
    ∀ (d a : Nat) (t : List Nat),
    1 ≤ a →
    a + d ≤ t.length →
    (∀ q, q < a → t.getD q 0
      = ((List.range (q + 1)).map (fun r => counts.getD r 0)).sum) →
    (∀ q, a ≤ q → t.getD q 0 = counts.getD q 0) →
    ((∀ q, q < a + d →
      ((List.range' a d).foldl
          (fun t i => t.set i (t.getD i 0 + t.getD (i - 1) 0)) t).getD q 0
        = ((List.range (q + 1)).map (fun r => counts.getD r 0)).sum) ∧
     (∀ q, a + d ≤ q →
      ((List.range' a d).foldl
          (fun t i => t.set i (t.getD i 0 + t.getD (i - 1) 0)) t).getD q 0
        = counts.getD q 0) ∧
     ((List.range' a d).foldl
        (fun t i => t.set i (t.getD i 0 + t.getD (i - 1) 0)) t).length
       = t.length) := by
  intro d
  induction d with
  | zero =>
    intro a t ha hlen h1 h2
    exact ⟨fun q hq => h1 q (by omega), fun q hq => h2 q (by omega), rfl⟩
  | succ k ih =>
    intro a t ha hlen h1 h2
    have hta : a < t.length := by omega
    have hsump : t.getD a 0 + t.getD (a - 1) 0
        = ((List.range (a + 1)).map (fun r => counts.getD r 0)).sum := by
      rw [h2 a (le_refl a), h1 (a - 1) (by omega)]
      rw [show a - 1 + 1 = a from by omega]
      rw [List.range_succ, List.map_append, List.sum_append]
      simp only [List.map_cons, List.map_nil, List.sum_cons, List.sum_nil]
      omega
    have hh1 : ∀ q, q < a + 1 →
        (t.set a (t.getD a 0 + t.getD (a - 1) 0)).getD q 0
          = ((List.range (q + 1)).map (fun r => counts.getD r 0)).sum := by
      intro q hq
      rw [getD_set_bounded 0 t a _ q hta]
      by_cases hqa : q = a
      · subst hqa
        rw [if_pos rfl]
        exact hsump
      · rw [if_neg hqa]
        exact h1 q (by omega)
    have hh2 : ∀ q, a + 1 ≤ q →
        (t.set a (t.getD a 0 + t.getD (a - 1) 0)).getD q 0
          = counts.getD q 0 := by
      intro q hq
      rw [getD_set_bounded 0 t a _ q hta, if_neg (by omega)]
      exact h2 q (by omega)
    obtain ⟨c1, c2, c3⟩ := ih (a + 1)
      (t.set a (t.getD a 0 + t.getD (a - 1) 0))
      (by omega) (by rw [List.length_set]; omega) hh1 hh2
    refine ⟨?_, ?_, ?_⟩
    · intro q hq
      rw [List.range'_succ, List.foldl_cons]
      exact c1 q (by omega)
    · intro q hq
      rw [List.range'_succ, List.foldl_cons]
      exact c2 q (by omega)
    · rw [List.range'_succ, List.foldl_cons, c3, List.length_set]

/-- The output `ROW_INDEX` of the transpose: entry `q` is the number of
stored entries in the first `q` original columns. -/
theorem tROW_spec (m : Matrix) (hb : ∀ c ∈ m.COL_INDEX, c < m.cols.toNat) :
    (∀ q, q ≤ m.cols.toNat →
      (tROWOf m).getD q 0
        = ((List.range q).map (fun c => m.COL_INDEX.count c)).sum) ∧
    (tROWOf m).length = m.cols.toNat + 1 := by
  have hcntlen : (cntsOf m).length = m.cols.toNat + 1 :=
    count_fold_length m.COL_INDEX m.cols.toNat hb _
      (by rw [List.length_replicate])
  have hcnt : ∀ q, (cntsOf m).getD q 0
      = if 1 ≤ q then m.COL_INDEX.count (q - 1) else 0 := by
    intro q
    unfold cntsOf
    rw [count_fold_getD, getD_replicate_self, Nat.zero_add]
  obtain ⟨c1, _, c3⟩ := prefix_fold (cntsOf m) m.cols.toNat 1 (cntsOf m)
    (le_refl 1) (by omega)
    (by
      intro q hq
      have hq0 : q = 0 := by omega
      subst hq0
      rw [show List.range 1 = [0] from rfl, List.map_cons, List.map_nil,
        List.sum_cons, List.sum_nil, Nat.add_zero])
    (fun q _ => rfl)
  constructor
  · intro q hq
    unfold tROWOf
    rw [c1 q (by omega)]
    rw [List.range_succ_eq_map, List.map_cons, List.sum_cons, List.map_map]
    have h0 : (cntsOf m).getD 0 0 = 0 := by
      rw [hcnt 0, if_neg (by omega)]
    rw [h0, Nat.zero_add]
    congr 1
    apply List.map_congr_left
    intro r _
    show (cntsOf m).getD (r + 1) 0 = m.COL_INDEX.count r
    rw [hcnt (r + 1), if_pos (by omega)]
    simp
  · unfold tROWOf
    rw [c3, hcntlen]

theorem foldl_flatten_eq {α β : Type} (g : β → α → β) :
    ∀ (ls : List (List α)) (s : β),
    ls.foldl (fun s l => l.foldl g s) s = ls.flatten.foldl g s := by
  intro ls
  induction ls with
  | nil => intro s; rfl
  | cons l t ih =>
    intro s
    rw [List.foldl_cons, List.flatten_cons, List.foldl_append, ih]

theorem foldl_congr_mem {α β : Type} :
    ∀ (l : List α) (f g : β → α → β) (s : β),
    (∀ a ∈ l, ∀ s, f s a = g s a) → l.foldl f s = l.foldl g s := by
  intro l
  induction l with
  | nil => intro f g s _; rfl
  | cons a t ih =>
    intro f g s h
    rw [List.foldl_cons, List.foldl_cons, h a (by simp)]
    exact ih _ _ _ (fun x hx s2 => h x (by simp [hx]) s2)

/-- `transpose()` is the scatter fold over the row-major entry triples,
from the prefix-summed cursors. -/
theorem transpose_eq_scatter (m : Matrix)
    (hlen : m.ROW_INDEX.length = m.rows.toNat + 1)
    (hch : List.Chain' (· ≤ ·) m.ROW_INDEX)
    (hlast : m.ROW_INDEX.getLastD 0 = m.V.length)
    (hcl : m.COL_INDEX.length = m.V.length) :
    Matrix.transpose m =
      { rows := m.cols, cols := m.rows,
        V := ((ents m).foldl scatStep (tROWOf m, [], [])).2.1,
        COL_INDEX := ((ents m).foldl scatStep (tROWOf m, [], [])).2.2,
        ROW_INDEX := tROWOf m } := by
  have hcounts : (List.range m.V.length).foldl
      (fun (t : List Nat) i =>
        listWrite t (m.COL_INDEX.getD i 0 + 1) 0
          (t.getD (m.COL_INDEX.getD i 0 + 1) 0 + 1))
      (List.replicate (m.cols.toNat + 1) 0) = cntsOf m := by
    rw [List.range_eq_range']
    have h3 : (List.range' 0 m.V.length).foldl
        (fun (t : List Nat) i =>
          listWrite t (m.COL_INDEX.getD i 0 + 1) 0
            (t.getD (m.COL_INDEX.getD i 0 + 1) 0 + 1))
        (List.replicate (m.cols.toNat + 1) 0)
        = ((m.COL_INDEX.drop 0).take m.V.length).foldl
            (fun t col => listWrite t (col + 1) 0 (t.getD (col + 1) 0 + 1))
            (List.replicate (m.cols.toNat + 1) 0) :=
      foldl_range_getD m.COL_INDEX
        (fun t col => listWrite t (col + 1) 0 (t.getD (col + 1) 0 + 1))
        m.V.length 0 (List.replicate (m.cols.toNat + 1) 0) (by omega)
    rw [h3, List.drop_zero, ← hcl, List.take_length]
    rfl
  have hraw : ∀ (st0 : List Nat × List Int × List Nat),
      (List.range m.rows.toNat).foldl
        (fun (st : List Nat × List Int × List Nat) i =>
          (List.range' (m.ROW_INDEX.getD i 0)
              (m.ROW_INDEX.getD (i + 1) 0 - m.ROW_INDEX.getD i 0)).foldl
            (fun (st : List Nat × List Int × List Nat) j =>
              (listWrite st.1 (m.COL_INDEX.getD j 0) 0
                 (st.1.getD (m.COL_INDEX.getD j 0) 0 + 1),
               listWrite st.2.1 (st.1.getD (m.COL_INDEX.getD j 0) 0) 0
                 (m.V.getD j 0),
               listWrite st.2.2 (st.1.getD (m.COL_INDEX.getD j 0) 0) 0 i))
            st) st0
      = (ents m).foldl scatStep st0 := by
    intro st0
    have houter : (List.range m.rows.toNat).foldl
        (fun (st : List Nat × List Int × List Nat) i =>
          (List.range' (m.ROW_INDEX.getD i 0)
              (m.ROW_INDEX.getD (i + 1) 0 - m.ROW_INDEX.getD i 0)).foldl
            (fun (st : List Nat × List Int × List Nat) j =>
              (listWrite st.1 (m.COL_INDEX.getD j 0) 0
                 (st.1.getD (m.COL_INDEX.getD j 0) 0 + 1),
               listWrite st.2.1 (st.1.getD (m.COL_INDEX.getD j 0) 0) 0
                 (m.V.getD j 0),
               listWrite st.2.2 (st.1.getD (m.COL_INDEX.getD j 0) 0) 0 i))
            st) st0
        = (List.range m.rows.toNat).foldl
            (fun st i => ((m.seg i).map (fun p => (i, p.1, p.2))).foldl
              scatStep st) st0 := by
      apply foldl_congr_mem
      intro i hi st
      have hirows : i < m.rows.toNat := List.mem_range.mp hi
      have h1 : (List.range' (m.ROW_INDEX.getD i 0)
            (m.ROW_INDEX.getD (i + 1) 0 - m.ROW_INDEX.getD i 0)).foldl
            (fun (st : List Nat × List Int × List Nat) j =>
              (listWrite st.1 (m.COL_INDEX.getD j 0) 0
                 (st.1.getD (m.COL_INDEX.getD j 0) 0 + 1),
               listWrite st.2.1 (st.1.getD (m.COL_INDEX.getD j 0) 0) 0
                 (m.V.getD j 0),
               listWrite st.2.2 (st.1.getD (m.COL_INDEX.getD j 0) 0) 0 i))
            st
          = (m.seg i).foldl (fun st p => scatStep st (i, p.1, p.2)) st :=
        foldl_range'_seg m i
          (fun st col val => scatStep st (i, col, val)) st hcl
          (ROW_getD_mono m hch i (i + 1) (by omega) (by omega))
          (ROW_getD_le_len m _ hlen hch hlast (i + 1) (by omega))
      rw [h1, List.foldl_map]
    rw [houter]
    have h4 := (List.foldl_map
      (fun i => (m.seg i).map (fun p => (i, p.1, p.2)))
      (fun (st : List Nat × List Int × List Nat)
        (l : List (Nat × Nat × Int)) => l.foldl scatStep st)
      (List.range m.rows.toNat) st0).symm
    rw [h4, foldl_flatten_eq]
    rfl
  simp only [Matrix.transpose]
  rw [hcounts]
  rw [show (List.range' 1 m.cols.toNat).foldl
      (fun (t : List Nat) i => t.set i (t.getD i 0 + t.getD (i - 1) 0))
      (cntsOf m) = tROWOf m from rfl]
  rw [hraw (tROWOf m, [], [])]

/-- The scatter loop's invariant: after processing a prefix `E1` of the
entries, every column cursor sits its column's prefix count past its
base, the written slots read back the per-column prefixes in order, and
the output arrays stay within the total entry count. -/
theorem scatter_invariant (N : Nat) (tR : List Nat)
    (E : List (Nat × Nat × Int))
    (hbE : ∀ e ∈ E, e.2.1 < N)
    (hstep : ∀ c, c < N → tR.getD (c + 1) 0
        = tR.getD c 0 + (colFilter E c).length)
    (hmono : ∀ a b, a ≤ b → b ≤ N → tR.getD a 0 ≤ tR.getD b 0) :
    ∀ (E2 E1 : List (Nat × Nat × Int)), E = E1 ++ E2 →
    ∀ (st : List Nat × List Int × List Nat),
    (∀ c, st.1.getD c 0 = tR.getD c 0 + (colFilter E1 c).length) →
    (∀ c, c < N → ∀ k, k < (colFilter E1 c).length →
        st.2.1.getD (tR.getD c 0 + k) 0 = ((colFilter E1 c).getD k (0, 0)).2
        ∧ st.2.2.getD (tR.getD c 0 + k) 0
            = ((colFilter E1 c).getD k (0, 0)).1) →
    (st.2.1.length ≤ tR.getD N 0 ∧ st.2.2.length ≤ tR.getD N 0) →
    (∀ c, c < N → 0 < (colFilter E1 c).length →
        tR.getD c 0 + (colFilter E1 c).length ≤ st.2.1.length
        ∧ tR.getD c 0 + (colFilter E1 c).length ≤ st.2.2.length) →
    ((∀ c, c < N → ∀ k, k < (colFilter E c).length →
        (E2.foldl scatStep st).2.1.getD (tR.getD c 0 + k) 0
            = ((colFilter E c).getD k (0, 0)).2
        ∧ (E2.foldl scatStep st).2.2.getD (tR.getD c 0 + k) 0
            = ((colFilter E c).getD k (0, 0)).1) ∧
     ((E2.foldl scatStep st).2.1.length ≤ tR.getD N 0
        ∧ (E2.foldl scatStep st).2.2.length ≤ tR.getD N 0) ∧
     (∀ c, c < N → 0 < (colFilter E c).length →
        tR.getD c 0 + (colFilter E c).length
            ≤ (E2.foldl scatStep st).2.1.length
        ∧ tR.getD c 0 + (colFilter E c).length
            ≤ (E2.foldl scatStep st).2.2.length)) := by
  intro E2
  induction E2 with
  | nil =>
    intro E1 hE st hptr hV hlen hge
    have hE1 : E1 = E := by rw [hE, List.append_nil]
    subst hE1
    exact ⟨fun c hc k hk => hV c hc k hk, hlen, hge⟩
  | cons e rest ih =>
    intro E1 hE st hptr hV hlen hge
    rw [List.foldl_cons]
    have hcN : e.2.1 < N := hbE e (by rw [hE]; simp)
    have hsplit : ∀ c', colFilter E c'
        = colFilter E1 c' ++ colFilter (e :: rest) c' := by
      intro c'
      rw [hE]
      unfold colFilter
      rw [List.filterMap_append]
    have hhead : colFilter (e :: rest) e.2.1
        = (e.1, e.2.2) :: colFilter rest e.2.1 := by
      unfold colFilter
      rw [List.filterMap_cons, if_pos rfl]
    have hfe : ∀ c', c' ≠ e.2.1 → colFilter [e] c' = [] := by
      intro c' hne
      unfold colFilter
      rw [List.filterMap_cons, if_neg (fun h => hne h.symm)]
      rfl
    have hfee : colFilter [e] e.2.1 = [(e.1, e.2.2)] := by
      unfold colFilter
      rw [List.filterMap_cons, if_pos rfl]
      rfl
    have hfilter_app : ∀ c', colFilter (E1 ++ [e]) c'
        = colFilter E1 c' ++ colFilter [e] c' := by
      intro c'
      unfold colFilter
      rw [List.filterMap_append]
    have hcnt_lt : (colFilter E1 e.2.1).length
        < (colFilter E e.2.1).length := by
      rw [hsplit e.2.1, hhead, List.length_append, List.length_cons]
      omega
    have hcnt_le : ∀ c', (colFilter E1 c').length
        ≤ (colFilter E c').length := by
      intro c'
      rw [hsplit c', List.length_append]
      omega
    have hboundpos : tR.getD e.2.1 0 + (colFilter E1 e.2.1).length
        < tR.getD (e.2.1 + 1) 0 := by
      rw [hstep e.2.1 hcN]
      omega
    have hposN : tR.getD e.2.1 0 + (colFilter E1 e.2.1).length
        < tR.getD N 0 := by
      have h2 := hmono (e.2.1 + 1) N (by omega) (le_refl N)
      omega
    have hsc1 : (scatStep st e).1
        = listWrite st.1 e.2.1 0 (st.1.getD e.2.1 0 + 1) := rfl
    have hsc2 : (scatStep st e).2.1
        = listWrite st.2.1 (st.1.getD e.2.1 0) 0 e.2.2 := rfl
    have hsc3 : (scatStep st e).2.2
        = listWrite st.2.2 (st.1.getD e.2.1 0) 0 e.1 := rfl
    refine ih (E1 ++ [e])
      (by rw [hE, List.append_assoc, List.singleton_append])
      (scatStep st e) ?_ ?_ ?_ ?_
    · intro c'
      rw [hsc1, getD_listWrite]
      by_cases hcc : c' = e.2.1
      · subst hcc
        rw [if_pos rfl, hptr e.2.1, hfilter_app e.2.1, hfee,
          List.length_append, List.length_cons, List.length_nil]
        omega
      · rw [if_neg hcc, hptr c', hfilter_app c', hfe c' hcc, List.append_nil]
    · intro c' hc' k hk
      rw [hsc2, hsc3, getD_listWrite, getD_listWrite, hptr e.2.1]
      rw [hfilter_app c'] at hk
      by_cases hcc : c' = e.2.1
      · subst hcc
        rw [hfee, List.length_append, List.length_cons, List.length_nil]
          at hk
        by_cases hkn : k = (colFilter E1 e.2.1).length
        · subst hkn
          rw [if_pos rfl, if_pos rfl]
          rw [hfilter_app e.2.1, hfee]
          rw [getD_concat_length]
          exact ⟨rfl, rfl⟩
        · have hklt : k < (colFilter E1 e.2.1).length := by omega
          rw [if_neg (by omega), if_neg (by omega)]
          rw [hfilter_app e.2.1, hfee,
            List.getD_append _ _ (0, 0) k hklt]
          exact hV e.2.1 hc' k hklt
      · have hne2 : tR.getD c' 0 + k ≠ tR.getD e.2.1 0
            + (colFilter E1 e.2.1).length := by
          rw [hfe c' hcc, List.append_nil] at hk
          rcases Nat.lt_or_ge c' e.2.1 with hlt | hge2
          · have h3 : tR.getD c' 0 + k < tR.getD (c' + 1) 0 := by
              rw [hstep c' hc']
              have := hcnt_le c'
              omega
            have h4 := hmono (c' + 1) e.2.1 (by omega) (by omega)
            omega
          · have hgt : e.2.1 < c' := by
              rcases Nat.eq_or_lt_of_le hge2 with h | h
              · exact absurd h.symm hcc
              · exact h
            have h4 := hmono (e.2.1 + 1) c' (by omega) (by omega)
            omega
        rw [if_neg hne2, if_neg hne2]
        rw [hfilter_app c', hfe c' hcc, List.append_nil]
        rw [hfe c' hcc, List.append_nil] at hk
        exact hV c' hc' k hk
    · rw [hsc2, hsc3, length_listWrite, length_listWrite, hptr e.2.1]
      omega
    · intro c' hc' hpos'
      rw [hsc2, hsc3, length_listWrite, length_listWrite, hptr e.2.1]
      by_cases hcc : c' = e.2.1
      · subst hcc
        rw [hfilter_app e.2.1, hfee, List.length_append, List.length_cons,
          List.length_nil]
        omega
      · rw [hfilter_app c', hfe c' hcc, List.append_nil]
        rw [hfilter_app c', hfe c' hcc, List.append_nil] at hpos'
        have := hge c' hc' hpos'
        omega

theorem length_colFilter_count :
    ∀ (E : List (Nat × Nat × Int)) (c : Nat),
    (colFilter E c).length = (E.map (fun e => e.2.1)).count c := by
  intro E
  induction E with
  | nil => intro c; rfl
  | cons e t ih =>
    intro c
    have hconsp : e.2.1 = c →
        colFilter (e :: t) c = (e.1, e.2.2) :: colFilter t c := by
      intro h
      unfold colFilter
      rw [List.filterMap_cons, if_pos h]
    have hconsn : ¬(e.2.1 = c) → colFilter (e :: t) c = colFilter t c := by
      intro h
      unfold colFilter
      rw [List.filterMap_cons, if_neg h]
    by_cases hc : e.2.1 = c
    · rw [hconsp hc, List.length_cons, ih c, List.map_cons, List.count_cons]
      simp [hc]
    · rw [hconsn hc, ih c, List.map_cons, List.count_cons]
      have hcc : ¬(c = e.2.1) := fun h => hc h.symm
      simp [hc, hcc]

theorem sum_ind_zero (x : Nat) :
    ∀ N, N ≤ x →
    ((List.range N).map (fun c => if c = x then (1 : Nat) else 0)).sum
      = 0 := by
  intro N
  induction N with
  | zero => intro _; rfl
  | succ j ih =>
    intro h
    rw [List.range_succ, List.map_append, List.sum_append, ih (by omega)]
    simp only [List.map_cons, List.map_nil, List.sum_cons, List.sum_nil]
    rw [if_neg (by omega)]
    omega

theorem sum_ind_one (x : Nat) :
    ∀ N, x < N →
    ((List.range N).map (fun c => if c = x then (1 : Nat) else 0)).sum
      = 1 := by
  intro N
  induction N with
  | zero => intro h; omega
  | succ j ih =>
    intro h
    rw [List.range_succ, List.map_append, List.sum_append]
    simp only [List.map_cons, List.map_nil, List.sum_cons, List.sum_nil]
    by_cases hj : x = j
    · rw [sum_ind_zero x j (by omega), if_pos hj.symm]
      omega
    · rw [ih (by omega), if_neg (fun hh => hj hh.symm)]
      omega

theorem sum_map_add_nat {α : Type} (f g : α → Nat) :
    ∀ l : List α,
    (l.map (fun a => f a + g a)).sum = (l.map f).sum + (l.map g).sum := by
  intro l
  induction l with
  | nil => rfl
  | cons a t ih =>
    simp only [List.map_cons, List.sum_cons, ih]
    omega

/-- Each element below the bound is counted once: summing the counts over
all columns recovers the length. -/
theorem sum_count_range (l : List Nat) (N : Nat) (h : ∀ x ∈ l, x < N) :
    ((List.range N).map (fun c => l.count c)).sum = l.length := by
  induction l with
  | nil => simp
  | cons x t ih =>
    have hx : x < N := h x (by simp)
    have ht : ∀ y ∈ t, y < N := fun y hy => h y (by simp [hy])
    have hsplit : ∀ c ∈ List.range N,
        (x :: t).count c = t.count c + (if c = x then 1 else 0) := by
      intro c _
      rw [List.count_cons]
      by_cases hcx : c = x
      · simp [hcx]
      · have hxc : ¬(x = c) := fun hh => hcx hh.symm
        simp [hcx, hxc]
    rw [List.map_congr_left hsplit, sum_map_add_nat, ih ht,
      sum_ind_one x N hx, List.length_cons]

theorem take_drop_glue {α : Type} (l : List α) (x y z : Nat)
    (hxy : x ≤ y) :
    (l.drop x).take (y - x) ++ (l.drop y).take (z - y)
      = (l.drop x).take (y - x + (z - y)) := by
  have h1 : l.drop y = ((l.drop x).drop (y - x)) := by
    rw [List.drop_drop]
    congr 1
    omega
  rw [h1, ← List.take_add]

/-- The row slices of `COL_INDEX` tile it exactly. -/
theorem flatten_segCols (m : Matrix) (n : Nat)
    (hlen : m.ROW_INDEX.length = n + 1)
    (hhead : m.ROW_INDEX.getD 0 0 = 0)
    (hch : List.Chain' (· ≤ ·) m.ROW_INDEX)
    (hlast : m.ROW_INDEX.getLastD 0 = m.V.length)
    (hcl : m.COL_INDEX.length = m.V.length) :
    ((List.range n).map (fun i => m.segCols i)).flatten = m.COL_INDEX := by
  have hmono : ∀ a b, a ≤ b → b ≤ n →
      m.ROW_INDEX.getD a 0 ≤ m.ROW_INDEX.getD b 0 :=
    fun a b hab hb => ROW_getD_mono m hch a b hab (by omega)
  have hgen : ∀ d a, a + d ≤ n →
      ((List.range' a d).map (fun i => m.segCols i)).flatten
        = (m.COL_INDEX.drop (m.ROW_INDEX.getD a 0)).take
            (m.ROW_INDEX.getD (a + d) 0 - m.ROW_INDEX.getD a 0) := by
    intro d
    induction d with
    | zero =>
      intro a _
      simp [Nat.sub_self]
    | succ k ihd =>
      intro a ha
      rw [List.range'_succ, List.map_cons, List.flatten_cons,
        ihd (a + 1) (by omega)]
      show m.segCols a ++ _ = _
      unfold Matrix.segCols
      rw [take_drop_glue m.COL_INDEX _ _ _
        (hmono a (a + 1) (by omega) (by omega))]
      have hh1 : m.ROW_INDEX.getD a 0 ≤ m.ROW_INDEX.getD (a + 1) 0 :=
        hmono a (a + 1) (by omega) (by omega)
      have hh2 : m.ROW_INDEX.getD (a + 1) 0
          ≤ m.ROW_INDEX.getD (a + 1 + k) 0 :=
        hmono (a + 1) (a + 1 + k) (by omega) (by omega)
      rw [show a + 1 + k = a + (k + 1) from by omega] at hh2 ⊢
      congr 1
      omega
  have h0 := hgen n 0 (by omega)
  have hne : m.ROW_INDEX ≠ [] := by
    intro hx
    rw [hx] at hlen
    simp at hlen
  have hend : m.ROW_INDEX.getD n 0 = m.V.length := by
    rw [← hlast, getLastD_eq_getD_pred _ hne, hlen]
    simp
  rw [List.range_eq_range', h0, hhead, List.drop_zero, Nat.sub_zero,
    show 0 + n = n from by omega, hend, ← hcl, List.take_length]

/-- The entry triples' column components, in order, are `COL_INDEX`. -/
theorem ents_map_col (m : Matrix)
    (hlen : m.ROW_INDEX.length = m.rows.toNat + 1)
    (hhead : m.ROW_INDEX.getD 0 0 = 0)
    (hch : List.Chain' (· ≤ ·) m.ROW_INDEX)
    (hlast : m.ROW_INDEX.getLastD 0 = m.V.length)
    (hcl : m.COL_INDEX.length = m.V.length) :
    (ents m).map (fun e => e.2.1) = m.COL_INDEX := by
  unfold ents
  rw [List.map_flatten, List.map_map]
  have hcong : ∀ i ∈ List.range m.rows.toNat,
      ((List.map (fun (e : Nat × Nat × Int) => e.2.1))
        ∘ fun i => (m.seg i).map (fun p => (i, p.1, p.2))) i
      = m.segCols i := by
    intro i _
    show ((m.seg i).map (fun p => (i, p.1, p.2))).map
      (fun (e : Nat × Nat × Int) => e.2.1) = _
    rw [List.map_map]
    have hfst : ((fun (e : Nat × Nat × Int) => e.2.1)
        ∘ (fun (p : Nat × Int) => (i, p.1, p.2))) = Prod.fst := rfl
    rw [hfst, seg_map_fst m i hcl]
  rw [List.map_congr_left hcong]
  exact flatten_segCols m m.rows.toNat hlen hhead hch hlast hcl

theorem global_index_decomp (w : Nat → Nat) :
    ∀ (q : Nat) (p : Nat), p < ((List.range q).map w).sum →
    ∃ c, c < q ∧ ∃ k, k < w c ∧ p = ((List.range c).map w).sum + k := by
  intro q
  induction q with
  | zero => intro p hp; simp at hp
  | succ j ih =>
    intro p hp
    rw [List.range_succ, List.map_append, List.sum_append] at hp
    simp only [List.map_cons, List.map_nil, List.sum_cons, List.sum_nil]
      at hp
    by_cases hpj : p < ((List.range j).map w).sum
    · obtain ⟨c, hc, k, hk, hpk⟩ := ih p hpj
      exact ⟨c, by omega, k, hk, hpk⟩
    · exact ⟨j, by omega, p - ((List.range j).map w).sum, by omega,
        by omega⟩

theorem flatten_getD_block {β : Type} (dβ : β) (f : (Nat × Int) → β)
    (bs : List (List (Nat × Int))) (c : Nat) (hc : c < bs.length)
    (k : Nat) (hk : k < (bs.getD c []).length) :
    ((bs.map (fun b => b.map f)).flatten).getD
        (((bs.map List.length).take c).sum + k) dβ
      = f ((bs.getD c []).getD k (0, 0)) := by
  have hex := flatten_extract f bs c hc
  have h1 : ((((bs.map (fun b => b.map f)).flatten.drop
      (((bs.map List.length).take c).sum)).take
        (bs.getD c []).length).getD k dβ)
      = ((bs.getD c []).map f).getD k dβ := by rw [hex]
  rw [List.getD_eq_getElem?_getD, List.getElem?_take, if_pos hk,
    List.getElem?_drop] at h1
  rw [List.getD_eq_getElem?_getD, h1]
  rw [List.getD_eq_getElem _ _ (by rw [List.length_map]; exact hk),
    List.getElem_map, List.getD_eq_getElem _ _ hk]

/-- `transpose()` on a well-formed store is exactly the block store of
the per-column `(row, value)` lists in row-major order. -/
theorem transpose_eq (m : Matrix) (hwf : WF m) :
    Matrix.transpose m = fromBlocks m.cols m.rows (tBlocks m) := by
  obtain ⟨hlen, hhead, hch, hlast, hcl, hsort, hbound, hnz⟩ := hwf
  have hEcol : (ents m).map (fun e => e.2.1) = m.COL_INDEX :=
    ents_map_col m hlen hhead hch hlast hcl
  have hW : ∀ c, (colBlock m c).length = m.COL_INDEX.count c := by
    intro c
    unfold colBlock
    rw [length_colFilter_count, hEcol]
  have hbE : ∀ e ∈ ents m, e.2.1 < m.cols.toNat := by
    intro e he
    have h1 : e.2.1 ∈ (ents m).map (fun e => e.2.1) :=
      List.mem_map_of_mem _ he
    rw [hEcol] at h1
    exact hbound _ h1
  obtain ⟨hF, htlen⟩ := tROW_spec m hbound
  have hF0 : (tROWOf m).getD 0 0 = 0 := by
    rw [hF 0 (by omega)]
    rfl
  have hstepF : ∀ c, c < m.cols.toNat → (tROWOf m).getD (c + 1) 0
      = (tROWOf m).getD c 0 + (colFilter (ents m) c).length := by
    intro c hc
    rw [hF (c + 1) (by omega), hF c (by omega), List.range_succ,
      List.map_append, List.sum_append]
    simp only [List.map_cons, List.map_nil, List.sum_cons, List.sum_nil]
    have h1 : (colFilter (ents m) c).length = m.COL_INDEX.count c := hW c
    omega
  have hmonoF : ∀ a b, a ≤ b → b ≤ m.cols.toNat →
      (tROWOf m).getD a 0 ≤ (tROWOf m).getD b 0 := by
    intro a b hab hb
    induction b with
    | zero =>
      have hz : a = 0 := by omega
      subst hz
      exact le_refl _
    | succ j ihb =>
      rcases Nat.eq_or_lt_of_le hab with rfl | hlt
      · exact le_refl _
      · have h1 := ihb (by omega) (by omega)
        rw [hstepF j (by omega)]
        omega
  have hFN : (tROWOf m).getD m.cols.toNat 0 = m.V.length := by
    rw [hF m.cols.toNat (le_refl _),
      sum_count_range m.COL_INDEX m.cols.toNat hbound]
    exact hcl
  obtain ⟨hContent, hLenLe, hLenGe⟩ := scatter_invariant m.cols.toNat
    (tROWOf m) (ents m) hbE (fun c hc => hstepF c hc) hmonoF
    (ents m) [] rfl (tROWOf m, [], [])
    (by
      intro c
      show (tROWOf m).getD c 0 = _
      rw [show colFilter [] c = [] from rfl]
      simp)
    (by
      intro c hc k hk
      rw [show colFilter [] c = [] from rfl] at hk
      simp at hk)
    (by exact ⟨Nat.zero_le _, Nat.zero_le _⟩)
    (by
      intro c hc h0
      rw [show colFilter [] c = [] from rfl] at h0
      simp at h0)
  have hgrow : ∀ b, b ≤ m.cols.toNat →
      (tROWOf m).getD b 0
        ≤ ((ents m).foldl scatStep (tROWOf m, [], [])).2.1.length
      ∧ (tROWOf m).getD b 0
        ≤ ((ents m).foldl scatStep (tROWOf m, [], [])).2.2.length := by
    intro b
    induction b with
    | zero =>
      intro _
      rw [hF0]
      exact ⟨Nat.zero_le _, Nat.zero_le _⟩
    | succ j ihb =>
      intro hb
      rw [hstepF j (by omega)]
      by_cases hz : 0 < (colFilter (ents m) j).length
      · exact hLenGe j (by omega) hz
      · have hz0 : (colFilter (ents m) j).length = 0 := by omega
        rw [hz0, Nat.add_zero]
        exact ihb (by omega)
  have hlenexact1 :
      ((ents m).foldl scatStep (tROWOf m, [], [])).2.1.length
        = m.V.length := by
    have h1 := (hgrow m.cols.toNat (le_refl _)).1
    have h2 := hLenLe.1
    rw [hFN] at h1 h2
    omega
  have hlenexact2 :
      ((ents m).foldl scatStep (tROWOf m, [], [])).2.2.length
        = m.V.length := by
    have h1 := (hgrow m.cols.toNat (le_refl _)).2
    have h2 := hLenLe.2
    rw [hFN] at h1 h2
    omega
  have hblkget : ∀ c, c < m.cols.toNat → (tBlocks m).getD c [] = colBlock m c := by
    intro c hc
    unfold tBlocks
    rw [List.getD_eq_getElem _ _ (by simpa using hc), List.getElem_map,
      List.getElem_range]
  have hTakeEq : ∀ c, c ≤ m.cols.toNat →
      ((tBlocks m).map List.length).take c
        = (List.range c).map (fun c2 => (colBlock m c2).length) := by
    intro c hc
    unfold tBlocks
    rw [List.map_map, ← List.map_take, List.take_range]
    rw [Nat.min_eq_left hc]
    rfl
  have hidx : ∀ c, c ≤ m.cols.toNat →
      ((List.range c).map (fun c2 => (colBlock m c2).length)).sum
        = (tROWOf m).getD c 0 := by
    intro c hc
    rw [hF c hc]
    congr 1
    apply List.map_congr_left
    intro c2 _
    exact hW c2
  have hsumW : ((List.range m.cols.toNat).map
      (fun c2 => (colBlock m c2).length)).sum = m.V.length := by
    rw [hidx m.cols.toNat (le_refl _), hFN]
  have htblen : (tBlocks m).length = m.cols.toNat := by
    unfold tBlocks
    rw [List.length_map, List.length_range]
  have hlensum : (tBlocks m).map List.length
      = (List.range m.cols.toNat).map
          (fun c2 => (colBlock m c2).length) := by
    unfold tBlocks
    rw [List.map_map]
    rfl
  have hVeq : ((ents m).foldl scatStep (tROWOf m, [], [])).2.1
      = ((tBlocks m).map (fun b => b.map Prod.snd)).flatten := by
    refine ext_getD (0 : Int) _ _ ?_ ?_
    · rw [hlenexact1, List.length_flatten, List.map_map]
      have hmm : ((tBlocks m).map
            (List.length ∘ (fun b => b.map Prod.snd)))
          = (tBlocks m).map List.length := by
        apply List.map_congr_left
        intro b _
        simp
      rw [hmm, hlensum, hsumW]
    · intro p hp
      rw [hlenexact1] at hp
      obtain ⟨c, hc, k, hk, hpk⟩ := global_index_decomp
        (fun c2 => (colBlock m c2).length) m.cols.toNat p
        (by rw [hsumW]; exact hp)
      subst hpk
      have hcont := (hContent c hc k hk).1
      have hR : ((tBlocks m).map
          (fun b => b.map Prod.snd)).flatten.getD
            ((tROWOf m).getD c 0 + k) 0
          = Prod.snd (((tBlocks m).getD c []).getD k (0, 0)) := by
        rw [← hidx c (by omega), ← hTakeEq c (by omega)]
        exact flatten_getD_block 0 Prod.snd (tBlocks m) c
          (by rw [htblen]; exact hc) k
          (by rw [hblkget c hc]; exact hk)
      rw [hidx c (by omega), hcont, hR, hblkget c hc]
      rfl
  have hCeq : ((ents m).foldl scatStep (tROWOf m, [], [])).2.2
      = ((tBlocks m).map (fun b => b.map Prod.fst)).flatten := by
    refine ext_getD (0 : Nat) _ _ ?_ ?_
    · rw [hlenexact2, List.length_flatten, List.map_map]
      have hmm : ((tBlocks m).map
            (List.length ∘ (fun b => b.map Prod.fst)))
          = (tBlocks m).map List.length := by
        apply List.map_congr_left
        intro b _
        simp
      rw [hmm, hlensum, hsumW]
    · intro p hp
      rw [hlenexact2] at hp
      obtain ⟨c, hc, k, hk, hpk⟩ := global_index_decomp
        (fun c2 => (colBlock m c2).length) m.cols.toNat p
        (by rw [hsumW]; exact hp)
      subst hpk
      have hcont := (hContent c hc k hk).2
      have hR : ((tBlocks m).map
          (fun b => b.map Prod.fst)).flatten.getD
            ((tROWOf m).getD c 0 + k) 0
          = Prod.fst (((tBlocks m).getD c []).getD k (0, 0)) := by
        rw [← hidx c (by omega), ← hTakeEq c (by omega)]
        exact flatten_getD_block 0 Prod.fst (tBlocks m) c
          (by rw [htblen]; exact hc) k
          (by rw [hblkget c hc]; exact hk)
      rw [hidx c (by omega), hcont, hR, hblkget c hc]
      rfl
  have hReq : tROWOf m = ((tBlocks m).map List.length).scanl (· + ·) 0 := by
    refine ext_getD (0 : Nat) _ _ ?_ ?_
    · rw [htlen, List.length_scanl, List.length_map, htblen]
    · intro q hq
      rw [htlen] at hq
      rw [hF q (by omega)]
      have hsc := scanl_add_getD ((tBlocks m).map List.length) 0 q
        (by rw [List.length_map, htblen]; omega)
      rw [hsc, hTakeEq q (by omega), Nat.zero_add]
      congr 1
      apply List.map_congr_left
      intro c2 _
      exact (hW c2).symm
  rw [transpose_eq_scatter m hlen hch hlast hcl]
  unfold fromBlocks
  rw [hVeq, hCeq, hReq]

/-- A column's block, split into its per-row contributions. -/
theorem colBlock_split (m : Matrix) (c : Nat) :
    colBlock m c = ((List.range m.rows.toNat).map
      (fun j => (m.seg j).filterMap
        (fun p => if p.1 = c then some (j, p.2) else none))).flatten := by
  unfold colBlock colFilter ents
  rw [List.filterMap_flatten, List.map_map]
  congr 1
  apply List.map_congr_left
  intro j _
  show ((m.seg j).map (fun p => (j, p.1, p.2))).filterMap _ = _
  rw [List.filterMap_map]
  rfl

theorem length_filterMap_key {α β : Type} (key : α → Nat) (f : α → β)
    (c : Nat) :
    ∀ l : List α,
    (l.filterMap (fun x => if key x = c then some (f x) else none)).length
      = (l.map key).count c := by
  intro l
  induction l with
  | nil => rfl
  | cons a t ih =>
    rw [List.filterMap_cons, List.map_cons, List.count_cons]
    by_cases ha : key a = c
    · subst ha
      rw [if_pos rfl, List.length_cons, ih]
      simp
    · rw [if_neg ha, ih]
      simp [ha]

theorem pairwise_of_length_le_one {α : Type} {R : α → α → Prop}
    (l : List α) (h : l.length ≤ 1) : l.Pairwise R := by
  cases l with
  | nil => exact List.Pairwise.nil
  | cons a t =>
    cases t with
    | nil => simp
    | cons b t2 => simp at h

/-- Every entry of a column block records an in-range row whose segment
stores the column with that value. -/
theorem colBlock_mem (m : Matrix) (c : Nat) (p : Nat × Int)
    (hp : p ∈ colBlock m c) :
    p.1 < m.rows.toNat ∧ ∃ q ∈ m.seg p.1, q.1 = c ∧ q.2 = p.2 := by
  unfold colBlock colFilter at hp
  obtain ⟨e, he, hge⟩ := List.mem_filterMap.mp hp
  by_cases hec : e.2.1 = c
  · rw [if_pos hec] at hge
    obtain rfl := Option.some.inj hge
    unfold ents at he
    rw [List.mem_flatten] at he
    obtain ⟨l, hl, hel⟩ := he
    obtain ⟨i, hi, rfl⟩ := List.mem_map.mp hl
    obtain ⟨q, hq, hqe⟩ := List.mem_map.mp hel
    have hi2 : i < m.rows.toNat := List.mem_range.mp hi
    obtain rfl := hqe
    exact ⟨hi2, q, hq, hec, rfl⟩
  · rw [if_neg hec] at hge
    exact absurd hge (by simp)

/-- The rows recorded in a column block appear in strictly increasing
order: each original row contributes at most one entry thanks to the
per-row sorted-column invariant, and rows are visited in order. -/
theorem colBlock_chain (m : Matrix) (c : Nat)
    (hcl : m.COL_INDEX.length = m.V.length)
    (hsort : ∀ r < m.rows.toNat, List.Chain' (· < ·) (m.segCols r)) :
    List.Chain' (· < ·) ((colBlock m c).map Prod.fst) := by
  rw [colBlock_split m c, List.map_flatten, List.map_map]
  rw [List.chain'_iff_pairwise, List.pairwise_flatten]
  constructor
  · intro l hl
    obtain ⟨i, hi, rfl⟩ := List.mem_map.mp hl
    apply pairwise_of_length_le_one
    show (((m.seg i).filterMap
      (fun p => if p.1 = c then some (i, p.2) else none)).map
        Prod.fst).length ≤ 1
    rw [List.length_map]
    rw [length_filterMap_key Prod.fst (fun p => ((i : Nat), p.2)) c]
    rw [seg_map_fst m i hcl]
    have hnd : (m.segCols i).Nodup :=
      (List.chain'_iff_pairwise.mp
        (hsort i (List.mem_range.mp hi))).imp (fun h => Nat.ne_of_lt h)
    exact List.nodup_iff_count_le_one.mp hnd c
  · rw [List.pairwise_map]
    refine (List.pairwise_lt_range _).imp ?_
    intro i j hij x hx y hy
    have hel : ∀ (r : Nat) (x2 : Nat),
        x2 ∈ ((m.seg r).filterMap
          (fun p => if p.1 = c then some (r, p.2) else none)).map Prod.fst
        → x2 = r := by
      intro r x2 hx2
      obtain ⟨p2, hp2, rfl⟩ := List.mem_map.mp hx2
      obtain ⟨q, _, hg⟩ := List.mem_filterMap.mp hp2
      by_cases hqc : q.1 = c
      · rw [if_pos hqc] at hg
        obtain rfl := Option.some.inj hg
        rfl
      · rw [if_neg hqc] at hg
        exact absurd hg (by simp)
    rw [hel i x hx, hel j y hy]
    exact hij

theorem tBlocks_length (m : Matrix) :
    (tBlocks m).length = m.cols.toNat := by
  unfold tBlocks
  rw [List.length_map, List.length_range]

/-- The transpose of a well-formed store is well formed. -/
theorem transpose_WF (m : Matrix) (hwf : WF m) :
    WF (Matrix.transpose m) := by
  have hwf2 := hwf
  obtain ⟨hlen, hhead, hch, hlast, hcl, hsort, hbound, hnz⟩ := hwf2
  rw [transpose_eq m hwf]
  have hblk : ∀ b ∈ tBlocks m, List.Chain' (· < ·) (b.map Prod.fst)
      ∧ ∀ p ∈ b, p.2 ≠ 0 := by
    intro b hb
    unfold tBlocks at hb
    obtain ⟨c, _, rfl⟩ := List.mem_map.mp hb
    refine ⟨colBlock_chain m c hcl hsort, ?_⟩
    intro p hp
    obtain ⟨_, q, hq, _, hq2⟩ := colBlock_mem m c p hp
    rw [← hq2]
    exact hnz _ (seg_snd_mem_V m p.1 q hcl hq)
  obtain ⟨hseg2, hnz2, hhead2, hch2, hlast2⟩ :=
    fromBlocks_CSRInv m.cols m.rows _ hblk
  refine ⟨?_, hhead2, hch2, hlast2, ?_, ?_, ?_, hnz2⟩
  · rw [fromBlocks_ROW_length, tBlocks_length]
    rfl
  · rw [fromBlocks_COL_length, fromBlocks_V_length]
  · intro r hr
    apply hseg2
    rw [fromBlocks_ROW_length, tBlocks_length]
    have hr2 : r < m.cols.toNat := hr
    omega
  · intro x hx
    show x < m.rows.toNat
    simp only [fromBlocks, List.mem_flatten, List.mem_map] at hx
    obtain ⟨lv, ⟨b, hbmem, rfl⟩, hxl⟩ := hx
    unfold tBlocks at hbmem
    obtain ⟨c, _, rfl⟩ := List.mem_map.mp hbmem
    obtain ⟨p, hp, rfl⟩ := List.mem_map.mp hxl
    exact (colBlock_mem m c p hp).1

theorem head?_filterMap {α β : Type} (g : α → Option β) :
    ∀ l : List α,
    (l.filterMap g).head? = (l.find? (fun x => (g x).isSome)).bind g := by
  intro l
  induction l with
  | nil => rfl
  | cons a t ih =>
    rw [List.filterMap_cons, List.find?_cons]
    cases hga : g a with
    | none => exact ih
    | some b =>
      show some b = g a
      rw [hga]

/-- Searching a flatten of keyed blocks (block `j` holds only key `j`)
for one of the block keys lands on that block's head. -/
theorem find?_flatten_keyed (f : Nat → List (Nat × Int))
    (hkey : ∀ j, ∀ p ∈ f j, p.1 = j) :
    ∀ (l : List Nat), l.Nodup → ∀ i, i ∈ l →
    ((l.map f).flatten.find? (fun p => p.1 = i)) = (f i).head? := by
  intro l
  induction l with
  | nil => intro _ i hi; exact absurd hi (by simp)
  | cons j t ih =>
    intro hnd i hi
    rw [List.map_cons, List.flatten_cons, List.find?_append]
    rcases List.mem_cons.mp hi with rfl | hit
    · have hfind : (f i).find? (fun p => p.1 = i) = (f i).head? := by
        cases hfi : f i with
        | nil => rfl
        | cons p t2 =>
          rw [List.find?_cons]
          have hpt : (decide (p.1 = i)) = true := by
            simp [hkey i p (by rw [hfi]; simp)]
          rw [hpt]
          rfl
      rw [hfind]
      cases hh : (f i).head? with
      | some p => rfl
      | none =>
        rw [Option.none_or]
        apply List.find?_eq_none.mpr
        intro p hp
        obtain ⟨lj, hlj, hplj⟩ := List.mem_flatten.mp hp
        obtain ⟨j2, hj2, rfl⟩ := List.mem_map.mp hlj
        have hk2 := hkey j2 p hplj
        have hj2i : j2 ≠ i := fun h => (List.nodup_cons.mp hnd).1 (h ▸ hj2)
        simp [hk2, hj2i]
    · have hij : i ≠ j := fun h => (List.nodup_cons.mp hnd).1 (h ▸ hit)
      have hfj : (f j).find? (fun p => p.1 = i) = none := by
        apply List.find?_eq_none.mpr
        intro p hp
        have hk2 := hkey j p hp
        have hji : ¬(j = i) := fun h => hij h.symm
        simp [hk2, hji]
      rw [hfj, Option.none_or]
      exact ih (List.nodup_cons.mp hnd).2 i hit

/-- Reading the transpose at `(c, i)` reads the original at `(i, c)`. -/
theorem get_transpose (m : Matrix) (hwf : WF m) (c i : Nat)
    (hc : c < m.cols.toNat) (hi : i < m.rows.toNat) :
    (Matrix.transpose m).get c i = m.get i c := by
  have hwf2 := hwf
  obtain ⟨hlen, hhead, hch, hlast, hcl, hsort, hbound, hnz⟩ := hwf2
  rw [transpose_eq m hwf]
  rw [fromBlocks_get m.cols m.rows (tBlocks m) c i
    (by rw [tBlocks_length]; exact hc)]
  have hblkget : (tBlocks m).getD c [] = colBlock m c := by
    unfold tBlocks
    rw [List.getD_eq_getElem _ _ (by simpa using hc), List.getElem_map,
      List.getElem_range]
  rw [hblkget, colBlock_split m c]
  have hkey : ∀ j, ∀ p ∈ (m.seg j).filterMap
      (fun p => if p.1 = c then some (j, p.2) else none), p.1 = j := by
    intro j p hp
    obtain ⟨q, _, hg⟩ := List.mem_filterMap.mp hp
    by_cases hqc : q.1 = c
    · rw [if_pos hqc] at hg
      obtain rfl := Option.some.inj hg
      rfl
    · rw [if_neg hqc] at hg
      exact absurd hg (by simp)
  rw [find?_flatten_keyed _ hkey (List.range m.rows.toNat)
    (List.nodup_range _) i (List.mem_range.mpr hi)]
  rw [head?_filterMap]
  have hpredeq : (fun (q : Nat × Int) =>
      ((if q.1 = c then some ((i : Nat), q.2) else none)
        : Option (Nat × Int)).isSome)
      = (fun (q : Nat × Int) => decide (q.1 = c)) := by
    funext q
    by_cases hq : q.1 = c <;> simp [hq]
  rw [hpredeq]
  rw [get_eq_seg_find? m i c hcl
    (ROW_getD_le_len m _ hlen hch hlast (i + 1) (by omega))]
  cases hf : (m.seg i).find? (fun q => q.1 = c) with
  | none => rfl
  | some q =>
    have hq1 : q.1 = c := by simpa using List.find?_some hf
    obtain ⟨q1, q2⟩ := q
    show (match (if q1 = c then some ((i : Nat), q2) else none
        : Option (Nat × Int)) with
      | none => (0 : Int)
      | some p => p.2) = q2
    rw [if_pos hq1]

/-- C6: for every store satisfying the CSR invariants, transposing twice
returns to the same shape and the same dense projection. -/
theorem c6_transpose_involutive (A : Matrix) (hwf : WF A) :
    (A.transpose.transpose).rows = A.rows ∧
    (A.transpose.transpose).cols = A.cols ∧
    (A.transpose.transpose).toArray = A.toArray := by
  have hWT := transpose_WF A hwf
  have hget2 : ∀ i j, i < A.rows.toNat → j < A.cols.toNat →
      (A.transpose.transpose).get i j = A.get i j := by
    intro i j hi hj
    rw [get_transpose A.transpose hWT i j hi hj]
    exact get_transpose A hwf j i hj hi
  refine ⟨rfl, rfl, ?_⟩
  unfold Matrix.toArray
  rw [show (A.transpose.transpose).rows = A.rows from rfl,
    show (A.transpose.transpose).cols = A.cols from rfl]
  have hfm : ∀ (l : List Nat) (f g : Nat → List Int),
      (∀ x ∈ l, f x = g x) → l.flatMap f = l.flatMap g := by
    intro l f g h
    rw [show l.flatMap f = (l.map f).flatten from rfl,
      show l.flatMap g = (l.map g).flatten from rfl,
      List.map_congr_left h]
  apply hfm
  intro row hrow
  apply List.map_congr_left
  intro col hcol
  exact hget2 row col (List.mem_range.mp hrow) (List.mem_range.mp hcol)

/-- C6 witness: the literal 2×2 store `Matrix(2,2,[[2,5],[1,7]])` is well
formed, and the theorem gives its double transpose the same shape and
dense projection. -/
theorem c6_transpose_involutive_witness :
    WF exHadA ∧ ((exHadA.transpose.transpose).rows = exHadA.rows ∧
      (exHadA.transpose.transpose).cols = exHadA.cols ∧
      (exHadA.transpose.transpose).toArray = exHadA.toArray) := by
  have h : WF exHadA := by decide
  exact ⟨h, c6_transpose_involutive exHadA h⟩

end CSR

